import Mathlib

/-!
# Job control of the shell: a shallow embedding

The definitions below follow `src/jobs.c`, `src/shell.c` and `src/command.c`.
The job table `jobs` (with `njobmax` slots) is a list of job records, the
process array of a job (`proc`, `nproc`) is a list of process records, and C
integers are `Int`.  Terminal ownership and terminal modes are not part of the
modelled state, except for the snapshot stored in a job record.
-/

namespace Shell

/-! ## Constants of `shell.h` -/

/-- Modelled from the spec: `shell.h` is not among the sources, so the numeric
values of the state codes `FINISHED`, `RUNNING`, `STOPPED` and of the selector
`ALL` are parameters of the model. -/
structure StateCodes where
  FINISHED : Int
  RUNNING : Int
  STOPPED : Int
  ALL : Int
deriving DecidableEq, Repr

/-- The four codes are pairwise different (they are enumerators used as
discriminators). -/
def StateCodes.Distinct (c : StateCodes) : Prop :=
  c.RUNNING ≠ c.STOPPED ∧ c.RUNNING ≠ c.FINISHED ∧ c.STOPPED ≠ c.FINISHED ∧
  c.ALL ≠ c.FINISHED ∧ c.ALL ≠ c.RUNNING ∧ c.ALL ≠ c.STOPPED

instance (c : StateCodes) : Decidable c.Distinct := by
  unfold StateCodes.Distinct; infer_instance

/-- Modelled from the spec: `FG`, the reserved foreground slot, is slot 0
(`shell.h` is not among the sources). -/
def FG : Nat := 0

/-- Modelled from the spec: `BG`, the first background slot, is slot 1
(`shell.h` is not among the sources). -/
def BG : Nat := 1

/-! ## Data model (`src/jobs.c`, lines 3-21) -/

/-- A `proc_t`. -/
structure Proc where
  pid : Int
  state : Int
  exitcode : Int
deriving DecidableEq, Repr

/-- A `job_t`.  The fields `proc` and `nproc` are one list; `command` is
`none` for the `NULL` pointer; `tmodes` is an identifier of a snapshot of the
terminal modes. -/
structure Job where
  pgid : Int
  proc : List Proc
  tmodes : Nat
  state : Int
  command : Option String
deriving DecidableEq, Repr

/-- A zero-filled slot, as left by `calloc` and `memset(.., 0, ..)`. -/
def Job.zero : Job := ⟨0, [], 0, 0, none⟩

/-- The array `jobs`; its length is `njobmax`. -/
abbrev Table := List Job

/-- Ways in which a call does not return to its caller.  The wrappers and
macros that end a call (`app_error`, `Close`, `assert`) are not among the
sources; each is taken not to return when it fails. -/
inductive Halt where
  /-- a read or write outside an array -/
  | outOfBounds
  /-- a failed `assert` -/
  | assertFailed
  /-- a string function is given `NULL` or an operator token, neither of
  which points to a string -/
  | badPointer
  /-- `app_error` was called -/
  | appError
  /-- `Close` on a descriptor that is not open -/
  | badClose
  /-- the call waits for a signal that never comes -/
  | blocked
deriving DecidableEq, Repr

/-! ## The reaper (`sigchld_handler`, `src/jobs.c` lines 23-84) -/

/-- Which of `WIFEXITED`, `WIFSIGNALED`, `WIFSTOPPED`, `WIFCONTINUED` holds of
a wait status (`other`: none of them). -/
inductive StatusKind where
  | exited | signaled | stopped | continued | other
deriving DecidableEq, Repr

/-- A status word returned by `waitpid`, with its classification. -/
structure WaitStatus where
  raw : Int
  kind : StatusKind
deriving DecidableEq, Repr

/-- Lines 41-55: the update of the matching process record. -/
def setStatus (c : StateCodes) (st : WaitStatus) (p : Proc) : Proc :=
  match st.kind with
  | .exited => { p with state := c.FINISHED, exitcode := st.raw }
  | .signaled => { p with state := c.FINISHED, exitcode := st.raw }
  | .stopped => { p with state := c.STOPPED }
  | .continued => { p with state := c.RUNNING }
  | .other => p

/-- Lines 37-58: the first record with the reaped pid is updated, then the
scan of this job stops (`break`). -/
def markProc (c : StateCodes) (pid : Int) (st : WaitStatus) : List Proc → List Proc
  | [] => []
  | p :: ps => if p.pid = pid then setStatus c st p :: ps else p :: markProc c pid st ps

/-- The three counters of lines 59-70. -/
structure Counts where
  running : Nat
  stopped : Nat
  finished : Nat
deriving DecidableEq, Repr

/-- One iteration of the counting loop, lines 63-69. -/
def tally (c : StateCodes) (k : Counts) (p : Proc) : Counts :=
  if p.state = c.RUNNING then { k with running := k.running + 1 }
  else if p.state = c.STOPPED then { k with stopped := k.stopped + 1 }
  else if p.state = c.FINISHED then { k with finished := k.finished + 1 }
  else k

/-- Lines 59-79: the state written into the job after counting. -/
def jobStateOf (c : StateCodes) (procs : List Proc) : Int :=
  let k := procs.foldl (tally c) ⟨0, 0, 0⟩
  if k.finished = procs.length then c.FINISHED
  else if k.stopped > 0 then c.STOPPED
  else c.RUNNING

/-- The body of the loop over the slots, lines 33-79, for one reaped pid. -/
def reapInJob (c : StateCodes) (pid : Int) (st : WaitStatus) (job : Job) : Job :=
  if job.pgid = 0 then job
  else
    let procs := markProc c pid st job.proc
    { job with proc := procs, state := jobStateOf c procs }

/-- Lines 32-80: one reaped status change is applied to every slot. -/
def reap (c : StateCodes) (t : Table) (e : Int × WaitStatus) : Table :=
  t.map (reapInJob c e.1 e.2)

/-- The handler: `evs` are the successive positive results of `waitpid`
together with the status each one reports. -/
def sigchld_handler (c : StateCodes) (t : Table) (evs : List (Int × WaitStatus)) : Table :=
  evs.foldl (reap c) t

/-- The fields of a slot that the reaper never changes: `b` has the group, the
command, the terminal modes and the pids of `a`. -/
def SameJob (a b : Job) : Prop :=
  b.pgid = a.pgid ∧ b.command = a.command ∧ b.tmodes = a.tmodes ∧
    b.proc.map Proc.pid = a.proc.map Proc.pid

/-- A state code that is one of the three states. -/
def ValidState (c : StateCodes) (s : Int) : Prop :=
  s = c.RUNNING ∨ s = c.STOPPED ∨ s = c.FINISHED

instance (c : StateCodes) (s : Int) : Decidable (ValidState c s) := by
  unfold ValidState; infer_instance

/-- A free slot: no group, no processes, no command. -/
def Job.Free (a : Job) : Prop :=
  a.pgid = 0 ∧ a.proc = [] ∧ a.command = none

/-- Well-formed background slots: an occupied slot has one of the three
states, and a job has at least one process. -/
def WellFormed (c : StateCodes) (t : Table) : Prop :=
  ∀ (k : Nat) (J : Job), 1 ≤ k → t[k]? = some J → J.pgid ≠ 0 →
    ValidState c J.state ∧ J.proc ≠ []

/-- The aggregate of the process states as the specification words it:
RUNNING if any process is RUNNING, else STOPPED if any is STOPPED, else
FINISHED. -/
def latticeAggregate (c : StateCodes) (procs : List Proc) : Int :=
  if procs.any (fun p => decide (p.state = c.RUNNING)) then c.RUNNING
  else if procs.any (fun p => decide (p.state = c.STOPPED)) then c.STOPPED
  else c.FINISHED

/-! ## Slots (`src/jobs.c`, lines 86-185) -/

/-- `exitcode`: the exit code of the last process, `proc[nproc - 1]`. -/
def exitcode (job : Job) : Except Halt Int :=
  match job.proc.getLast? with
  | some p => .ok p.exitcode
  | none => .error .outOfBounds

/-- The search loop of `allocjob` (lines 93-95) over the slots `rest`, the
first of which has index `j`. -/
def firstFree : List Job → Nat → Option Nat
  | [], _ => none
  | job :: rest, j => if job.pgid = 0 then some j else firstFree rest (j + 1)

/-- `allocjob`: the lowest free slot from `BG` on, or a new zero-filled slot
at the end of the table.  The result is the index and the table. -/
def allocjob (t : Table) : Nat × Table :=
  match firstFree (t.drop BG) BG with
  | some j => (j, t)
  | none => (t.length, t ++ [Job.zero])

/-- `addjob`: `shell_tmodes` is the saved terminal modes of the shell. -/
def addjob (c : StateCodes) (shell_tmodes : Nat) (t : Table) (pgid : Int) (bg : Int) :
    Except Halt (Nat × Table) :=
  let a := if bg ≠ 0 then allocjob t else (FG, t)
  if a.1 < a.2.length then
    .ok (a.1, a.2.set a.1
      { pgid := pgid, state := c.RUNNING, command := none, proc := [], tmodes := shell_tmodes })
  else .error .outOfBounds

/-- `deljob`. -/
def deljob (c : StateCodes) (job : Job) : Except Halt Job :=
  if job.state = c.FINISHED then .ok { job with pgid := 0, command := none, proc := [] }
  else .error .assertFailed

/-- `movejob`: the record of slot `src` is copied to slot `dst`, and slot
`src` is zero-filled. -/
def movejob (t : Table) (src dst : Nat) : Except Halt Table :=
  match t[src]?, t[dst]? with
  | some a, some b =>
    if b.pgid = 0 then .ok ((t.set dst a).set src Job.zero) else .error .assertFailed
  | _, _ => .error .outOfBounds

/-- `mkcommand`, with `strapp` appending to the string (`none` is `NULL`). -/
def mkcommand (cmd : Option String) (argv : List String) : Except Halt (Option String) :=
  match argv with
  | [] => .error .badPointer
  | a :: rest =>
    let start := match cmd with
      | some s => s ++ " | " ++ a
      | none => a
    .ok (some (rest.foldl (fun s x => s ++ " " ++ x) start))

/-- `addproc`. -/
def addproc (c : StateCodes) (t : Table) (j : Int) (pid : Int) (argv : List String) :
    Except Halt Table :=
  if j ≥ t.length then .error .assertFailed
  else if j < 0 then .error .outOfBounds
  else
    match t[j.toNat]? with
    | none => .error .outOfBounds
    | some job =>
      match mkcommand job.command argv with
      | .error h => .error h
      | .ok cmd =>
        .ok (t.set j.toNat
          { job with proc := job.proc ++ [⟨pid, c.RUNNING, -1⟩], command := cmd })

/-- `jobstate`: the result is the state, the value of `*statusp` afterwards
(`status` before the call) and the table. -/
def jobstate (c : StateCodes) (t : Table) (j : Nat) (status : Int) :
    Except Halt (Int × Int × Table) :=
  match t[j]? with
  | none => .error .assertFailed
  | some job =>
    if job.state = c.FINISHED then
      match exitcode job with
      | .error h => .error h
      | .ok ec =>
        match deljob c job with
        | .error h => .error h
        | .ok job1 => .ok (job.state, ec, t.set j job1)
    else .ok (job.state, status, t)

/-! ## Foreground monitor (`monitorjob`, lines 289-319) -/

/-- Lines 297-303.  Each element of `sigs` is what the handler reaps during
one `Sigsuspend` (the empty list when another signal ended the wait).  When
the job is still RUNNING and no further signal comes, the loop waits for
ever.  The result is the last state, the exit code and the table. -/
def monitorLoop (c : StateCodes) (t : Table) (ec : Int) :
    List (List (Int × WaitStatus)) → Except Halt (Int × Int × Table)
  | [] =>
    match jobstate c t 0 ec with
    | .error h => .error h
    | .ok r => if r.1 = c.RUNNING then .error .blocked else .ok r
  | evs :: rest =>
    match jobstate c t 0 ec with
    | .error h => .error h
    | .ok r =>
      if r.1 = c.RUNNING then monitorLoop c (sigchld_handler c r.2.2 evs) r.2.1 rest
      else .ok r

/-- Lines 304-311: a stopped foreground job gets the current terminal modes
`cur_tmodes` and moves to a slot given by `allocjob`. -/
def evacuate (cur_tmodes : Nat) (t : Table) : Except Halt Table :=
  match t[0]? with
  | none => .error .outOfBounds
  | some job =>
    let a := allocjob (t.set 0 { job with tmodes := cur_tmodes })
    movejob a.2 0 a.1

/-- `monitorjob`: the result is the exit code and the table. -/
def monitorjob (c : StateCodes) (cur_tmodes : Nat) (t : Table)
    (sigs : List (List (Int × WaitStatus))) : Except Halt (Int × Table) :=
  match monitorLoop c t 0 sigs with
  | .error h => .error h
  | .ok r =>
    if r.1 = c.STOPPED then
      match evacuate cur_tmodes r.2.2 with
      | .error h => .error h
      | .ok t1 => .ok (r.2.1, t1)
    else .ok (r.2.1, r.2.2)

/-! ## Resuming and killing (`resumejob`, `killjob`, lines 187-252) -/

/-- Line 191: from slot `j` downwards, the first slot that is slot 0 or not
FINISHED. -/
def lastLive (c : StateCodes) (t : Table) : Nat → Except Halt Nat
  | 0 => .ok 0
  | j + 1 =>
    match t[j + 1]? with
    | none => .error .outOfBounds
    | some job => if job.state = c.FINISHED then lastLive c t j else .ok (j + 1)

/-- Lines 190-193: the slot meant by the argument `j`. -/
def resolveJob (c : StateCodes) (t : Table) (j : Int) : Except Halt Int :=
  if j < 0 then
    match t.length with
    | 0 => .ok (-1)
    | n + 1 => (lastLive c t n).map Int.ofNat
  else .ok j

/-- Lines 200-206 with `bg` clear: the job of slot `j` is marked RUNNING and
moved to slot 0. -/
def toForeground (c : StateCodes) (t : Table) (j : Nat) (job : Job) : Except Halt Table :=
  movejob (t.set j { job with state := c.RUNNING }) j 0

/-- `resumejob`.  The signals sent and the messages are not part of the
result, which is the returned flag and the table. -/
def resumejob (c : StateCodes) (cur_tmodes : Nat) (t : Table) (j : Int) (bg : Int)
    (sigs : List (List (Int × WaitStatus))) : Except Halt (Bool × Table) :=
  match resolveJob c t j with
  | .error h => .error h
  | .ok j1 =>
    if j1 ≥ t.length then .ok (false, t)
    else if j1 < 0 then .error .outOfBounds
    else
      match t[j1.toNat]? with
      | none => .error .outOfBounds
      | some job =>
        if job.state = c.FINISHED then .ok (false, t)
        else
          if bg = 0 then
            match toForeground c t j1.toNat job with
            | .error h => .error h
            | .ok t2 =>
              match monitorjob c cur_tmodes t2 sigs with
              | .error h => .error h
              | .ok r => .ok (true, r.2)
          else .ok (true, t.set j1.toNat { job with state := c.RUNNING })

/-- The signals `killjob` sends. -/
inductive Signal where
  | SIGTERM | SIGCONT
deriving DecidableEq, Repr

/-- The system calls of `killjob`. -/
inductive Sys where
  | kill (pid : Int) (sig : Signal)
  | setfgpgrp (pgid : Int)
  | tcsetattr (tmodes : Nat)
deriving DecidableEq, Repr

/-- `killjob`: the result is the returned flag and the system calls made;
the table is only read.  `shell_pid` is the result of `getpid`. -/
def killjob (c : StateCodes) (shell_tmodes : Nat) (shell_pid : Int) (t : Table) (j : Int) :
    Except Halt (Bool × List Sys) :=
  if j ≥ t.length then .ok (false, [])
  else if j < 0 then .error .outOfBounds
  else
    match t[j.toNat]? with
    | none => .error .outOfBounds
    | some job =>
      if job.state = c.FINISHED then .ok (false, [])
      else if job.state = c.STOPPED then
        .ok (true, [.setfgpgrp job.pgid, .tcsetattr job.tmodes, .kill (-job.pgid) .SIGTERM,
          .kill (-job.pgid) .SIGCONT, .setfgpgrp shell_pid, .tcsetattr shell_tmodes,
          .kill (-job.pgid) .SIGTERM])
      else .ok (true, [.kill (-job.pgid) .SIGTERM])

/-! ## Reports (`watchjobs`, lines 254-285) -/

/-- A line printed by `watchjobs`; for a finished job the line is determined
by the raw exit status. -/
inductive Msg where
  | running (j : Nat) (cmd : Option String)
  | suspended (j : Nat) (cmd : Option String)
  | finished (j : Nat) (cmd : Option String) (status : Int)
deriving DecidableEq, Repr

/-- The body of the loop of `watchjobs` for slot `j`. -/
def watchSlot (c : StateCodes) (which : Int) (j : Nat) (job : Job) :
    Except Halt (Job × List Msg) :=
  if job.pgid = 0 then .ok (job, [])
  else if which ≠ c.ALL ∧ job.state ≠ which then .ok (job, [])
  else if job.state = c.RUNNING then .ok (job, [.running j job.command])
  else if job.state = c.STOPPED then .ok (job, [.suspended j job.command])
  else
    match exitcode job with
    | .error h => .error h
    | .ok ec =>
      match deljob c job with
      | .error h => .error h
      | .ok job1 => .ok (job1, [.finished j job.command ec])

/-- The loop of `watchjobs` over the slots `rest`, the first of which has
index `j`. -/
def watchFrom (c : StateCodes) (which : Int) : Nat → List Job → Except Halt (List Job × List Msg)
  | _, [] => .ok ([], [])
  | j, job :: rest =>
    match watchSlot c which j job with
    | .error h => .error h
    | .ok r =>
      match watchFrom c which (j + 1) rest with
      | .error h => .error h
      | .ok rs => .ok (r.1 :: rs.1, r.2 ++ rs.2)

/-- `watchjobs`: the result is the table and the lines printed. -/
def watchjobs (c : StateCodes) (which : Int) (t : Table) : Except Halt (Table × List Msg) :=
  match watchFrom c which BG (t.drop BG) with
  | .error h => .error h
  | .ok r => .ok (t.take BG ++ r.1, r.2)

/-! ## Tokens and descriptors (`src/shell.c`) -/

/-- Modelled from the spec: the type `token_t` of `shell.h` is not among the
sources.  A token is a word or one of the four operators `<`, `>`, `|`, `&`;
`T_NULL` is the `NULL` pointer that ends a token array. -/
inductive Token where
  | T_NULL
  | T_INPUT
  | T_OUTPUT
  | T_PIPE
  | T_BGJOB
  | word (s : String)
deriving DecidableEq, Repr

/-- What an open descriptor of the shell refers to: a file opened by
`do_redir` (for writing or for reading), or something else (the terminal, a
pipe end). -/
inductive OpenFile where
  | file (path : String) (write : Bool)
  | other (tag : Nat)
deriving DecidableEq, Repr

/-- The open descriptors of the shell process, each with what it refers to. -/
abbrev FdTable := List (Nat × OpenFile)

/-- Whether the descriptor `fd` is open. -/
def isOpen (fds : FdTable) (fd : Int) : Bool :=
  fds.any (fun e => decide ((e.1 : Int) = fd))

/-- The search for the lowest descriptor that is not open, from `n` on. -/
def lowestFreeFrom (fds : FdTable) : Nat → Nat → Nat
  | 0, n => n
  | fuel + 1, n => if isOpen fds n then lowestFreeFrom fds fuel (n + 1) else n

/-- The descriptor a successful `open` or `pipe` returns: the lowest one that
is not open. -/
def lowestFree (fds : FdTable) : Nat :=
  lowestFreeFrom fds fds.length 0

/-- Modelled from the spec: the wrapper `Close` is not among the sources;
closing a descriptor that is not open does not return. -/
def Close (fds : FdTable) (fd : Int) : Except Halt FdTable :=
  if isOpen fds fd then .ok (fds.filter (fun e => decide ((e.1 : Int) ≠ fd)))
  else .error .badClose

/-- `MaybeClose` (lines 18-23): the result is the new value of `*fdp`, the
open descriptors and the log of the descriptors closed. -/
def MaybeClose (fds : FdTable) (closed : List Int) (fd : Int) :
    Except Halt (Int × FdTable × List Int) :=
  if fd < 0 then .ok (fd, fds, closed)
  else
    match Close fds fd with
    | .error h => .error h
    | .ok fds1 => .ok (-1, fds1, closed ++ [fd])

/-- Modelled from the spec: the wrapper `Open` is not among the sources.  The
file system `fs` tells which paths can be opened; an operator token is not a
path.  The result is `none` for a failure (a negative descriptor). -/
def Open (fs : String → Bool) (fds : FdTable) (tok : Token) (write : Bool) :
    Option (Nat × FdTable) :=
  match tok with
  | .word path =>
    if fs path then some (lowestFree fds, (lowestFree fds, .file path write) :: fds) else none
  | _ => none

/-! ## The redirection resolver (`do_redir`, `src/shell.c` lines 27-70) -/

/-- The variables of `do_redir`: the token array, `mode`, `n`, `*inputp`,
`*outputp`; and the open descriptors of the process with the log of the
descriptors closed. -/
structure Redir where
  token : List Token
  mode : Token
  n : Nat
  input : Int
  output : Int
  fds : FdTable
  closed : List Int
deriving DecidableEq, Repr

/-- The body of the loop of `do_redir` for index `i` (lines 34-64).  A failed
`Open` ends in `app_error`. -/
def redirStep (fs : String → Bool) (s : Redir) (i : Nat) : Except Halt Redir :=
  match s.token[i]? with
  | none => .error .outOfBounds
  | some tok =>
    if tok = .T_INPUT then .ok { s with mode := .T_INPUT }
    else if tok = .T_OUTPUT then .ok { s with mode := .T_OUTPUT }
    else if s.mode ≠ .T_NULL then
      if s.mode = .T_INPUT then
        match MaybeClose s.fds s.closed s.input with
        | .error h => .error h
        | .ok m =>
          match Open fs m.2.1 tok false with
          | none => .error .appError
          | some o => .ok { s with input := o.1, fds := o.2, closed := m.2.2, mode := .T_NULL }
      else if s.mode = .T_OUTPUT then
        match MaybeClose s.fds s.closed s.output with
        | .error h => .error h
        | .ok m =>
          match Open fs m.2.1 tok true with
          | none => .error .appError
          | some o => .ok { s with output := o.1, fds := o.2, closed := m.2.2, mode := .T_NULL }
      else .ok { s with mode := .T_NULL }
    else if s.n < s.token.length then
      .ok { s with token := s.token.set s.n tok, n := s.n + 1 }
    else .error .outOfBounds

/-- The loop of `do_redir` over the indices `is`. -/
def redirLoop (fs : String → Bool) : List Nat → Redir → Except Halt Redir
  | [], s => .ok s
  | i :: is, s =>
    match redirStep fs s i with
    | .error h => .error h
    | .ok s1 => redirLoop fs is s1

/-- `do_redir`: in the result, `n` is the returned length, `token` the array
afterwards, `input` and `output` the two descriptor slots. -/
def do_redir (fs : String → Bool) (token : List Token) (ntokens : Nat) (input output : Int)
    (fds : FdTable) : Except Halt Redir :=
  match redirLoop fs (List.range ntokens) ⟨token, .T_NULL, 0, input, output, fds, []⟩ with
  | .error h => .error h
  | .ok s =>
    if s.n < s.token.length then .ok { s with token := s.token.set s.n .T_NULL }
    else .error .outOfBounds

/-- The word tokens of a slice as the specification words them: the tokens
that are neither a `<` or `>` operator nor the filename operand that follows
such an operator.  `pending` tells that an operator waits for its operand. -/
def wordTokens : Bool → List Token → List Token
  | _, [] => []
  | pending, t :: ts =>
    if t = .T_INPUT ∨ t = .T_OUTPUT then wordTokens true ts
    else if pending then wordTokens false ts
    else t :: wordTokens false ts

/-- The filename operands of the operator `op` in a slice, in order; `m` is
the operator that waits for its operand (`T_NULL`: none). -/
def operands (op : Token) : Token → List Token → List Token
  | _, [] => []
  | m, t :: ts =>
    if t = .T_INPUT ∨ t = .T_OUTPUT then operands op t ts
    else if m = op then t :: operands op .T_NULL ts
    else operands op .T_NULL ts

/-- The state of the walk of `do_redir` seen on the list of the tokens read:
`words` are the tokens kept so far. -/
structure Walk where
  mode : Token
  words : List Token
  input : Int
  output : Int
  fds : FdTable
  closed : List Int
deriving DecidableEq, Repr

/-- The step of `do_redir` on the token `tok`, the kept tokens being a list. -/
def walkStep (fs : String → Bool) (w : Walk) (tok : Token) : Except Halt Walk :=
  if tok = .T_INPUT then .ok { w with mode := .T_INPUT }
  else if tok = .T_OUTPUT then .ok { w with mode := .T_OUTPUT }
  else if w.mode ≠ .T_NULL then
    if w.mode = .T_INPUT then
      match MaybeClose w.fds w.closed w.input with
      | .error h => .error h
      | .ok m =>
        match Open fs m.2.1 tok false with
        | none => .error .appError
        | some o => .ok { w with input := o.1, fds := o.2, closed := m.2.2, mode := .T_NULL }
    else if w.mode = .T_OUTPUT then
      match MaybeClose w.fds w.closed w.output with
      | .error h => .error h
      | .ok m =>
        match Open fs m.2.1 tok true with
        | none => .error .appError
        | some o => .ok { w with output := o.1, fds := o.2, closed := m.2.2, mode := .T_NULL }
    else .ok { w with mode := .T_NULL }
  else .ok { w with words := w.words ++ [tok] }

/-- The walk over a list of tokens. -/
def walk (fs : String → Bool) : List Token → Walk → Except Halt Walk
  | [], w => .ok w
  | tok :: ts, w =>
    match walkStep fs w tok with
    | .error h => .error h
    | .ok w1 => walk fs ts w1

/-- The walk state that a state of `do_redir` stands for. -/
def Redir.toWalk (s : Redir) : Walk :=
  ⟨s.mode, s.token.take s.n, s.input, s.output, s.fds, s.closed⟩

/-- Every filename operand of the slice is a path that can be opened. -/
def OpensSucceed (fs : String → Bool) (toks : List Token) : Prop :=
  ∀ t, t ∈ operands .T_INPUT .T_NULL toks ∨ t ∈ operands .T_OUTPUT .T_NULL toks →
    ∃ path, t = .word path ∧ fs path = true

/-- The two descriptor slots on entry: no descriptor is listed twice as open,
each slot is unset (negative) or holds an open descriptor, and the two slots
do not hold the same descriptor. -/
def SlotsOk (fds : FdTable) (input output : Int) : Prop :=
  (fds.map Prod.fst).Nodup ∧ (input < 0 ∨ isOpen fds input = true) ∧
    (output < 0 ∨ isOpen fds output = true) ∧ (0 ≤ input → input ≠ output)

/-- The number of descriptors of one direction that are superseded during the
walk: with operands `ops` and the slot holding `slot` on entry, every
descriptor but the last one opened, and the one of the slot if it held one. -/
def superseded (ops : List Token) (slot : Int) : Nat :=
  if ops = [] then 0 else ops.length - 1 + (if 0 ≤ slot then 1 else 0)

/-- What the walk leaves of the descriptors: `fds0`, `in0`, `out0` are the
open descriptors and the two slots before, `nclosed` the number of closes
before, `I` and `O` the operands of `<` and of `>`.  The slots are well
formed; a direction without operand keeps its slot; the open descriptors are
those of before, less the slot of a direction with an operand, plus, for each
direction with an operand, the slot, which is the file of the last operand;
and there is one close for each superseded descriptor. -/
def FdsAfter (fds0 : FdTable) (in0 out0 : Int) (nclosed : Nat) (I O : List Token) (w : Walk) :
    Prop :=
  SlotsOk w.fds w.input w.output ∧
  (I = [] → w.input = in0) ∧ (O = [] → w.output = out0) ∧
  (I ≠ [] → 0 ≤ w.input) ∧ (O ≠ [] → 0 ≤ w.output) ∧
  (∀ e : Nat × OpenFile, e ∈ w.fds ↔
    (e ∈ fds0 ∧ ¬ (I ≠ [] ∧ (e.1 : Int) = in0) ∧ ¬ (O ≠ [] ∧ (e.1 : Int) = out0)) ∨
    (∃ path, I.getLast? = some (.word path) ∧ (e.1 : Int) = w.input ∧ e.2 = .file path false) ∨
    (∃ path, O.getLast? = some (.word path) ∧ (e.1 : Int) = w.output ∧ e.2 = .file path true)) ∧
  w.closed.length = nclosed + superseded I in0 + superseded O out0

/-! ## Commands (`src/shell.c` lines 72-279, `src/command.c` lines 94-108) -/

/-- A forked process as the shell leaves it: its pid, its argument vector and
the descriptors it takes as standard input and output (negative: inherited). -/
structure Child where
  pid : Int
  argv : List Token
  input : Int
  output : Int
deriving DecidableEq, Repr

/-- The state of the shell process: the job table, the open descriptors and
the processes forked so far. -/
structure ShellState where
  jobs : Table
  fds : FdTable
  children : List Child
deriving DecidableEq, Repr

/-- What the shell takes from its surroundings: the state codes, the saved and
the current terminal modes, the paths that can be opened, the pid returned by
the `k`-th fork, and what the handler reaps during each wait of a monitor. -/
structure Env where
  codes : StateCodes
  shell_tmodes : Nat
  cur_tmodes : Nat
  fs : String → Bool
  forkPid : Nat → Int
  sigs : List (List (Int × WaitStatus))

/-- The argument vector that starts at the head of a token array: the tokens
before the first `NULL`. -/
def argvOf (token : List Token) : List Token :=
  token.takeWhile (fun t => decide (t ≠ .T_NULL))

/-- The strings of an argument vector; an operator token is not a string. -/
def argvStrings : List Token → Except Halt (List String)
  | [] => .ok []
  | .word s :: rest =>
    match argvStrings rest with
    | .error h => .error h
    | .ok ss => .ok (s :: ss)
  | _ :: _ => .error .badPointer

/-- The names of the table `builtins`. -/
def builtins : List String := ["quit", "cd", "jobs", "fg", "bg", "kill"]

/-- `builtin_command`: `strcmp` on `argv[0]`, which has to be a string; the
body of the built-in found is `run name args`. -/
def builtin_command (run : String → List Token → ShellState → Except Halt (Int × ShellState))
    (argv : List Token) (s : ShellState) : Except Halt (Int × ShellState) :=
  match argv with
  | .word name :: args => if name ∈ builtins then run name args s else .ok (-1, s)
  | _ => .error .badPointer

/-- Lines 111-123 of `do_job`, the parent after `fork`: the job is added with
its process and, in the foreground, monitored. -/
def launch (env : Env) (argv : List Token) (bg : Bool) (pid : Int) (exitcode : Int)
    (s : ShellState) : Except Halt (Int × ShellState) :=
  match addjob env.codes env.shell_tmodes s.jobs pid (if bg then 1 else 0) with
  | .error h => .error h
  | .ok a =>
    match argvStrings argv with
    | .error h => .error h
    | .ok strs =>
      match addproc env.codes a.2 a.1 pid strs with
      | .error h => .error h
      | .ok t =>
        if bg then .ok (exitcode, { s with jobs := t })
        else
          match monitorjob env.codes env.cur_tmodes t env.sigs with
          | .error h => .error h
          | .ok m => .ok (m.1, { s with jobs := m.2 })

/-- `do_job`, in the shell process.  The result is the returned exit code and
the state. -/
def do_job (env : Env)
    (run : String → List Token → ShellState → Except Halt (Int × ShellState))
    (token : List Token) (ntokens : Nat) (bg : Bool) (s : ShellState) :
    Except Halt (Int × ShellState) :=
  match do_redir env.fs token ntokens (-1) (-1) s.fds with
  | .error h => .error h
  | .ok r =>
    let s1 : ShellState := { s with fds := r.fds }
    let child : Child := ⟨env.forkPid s.children.length, argvOf r.token, r.input, r.output⟩
    if bg then
      launch env (argvOf r.token) bg child.pid 0 { s1 with children := s1.children ++ [child] }
    else
      match builtin_command run (argvOf r.token) s1 with
      | .error h => .error h
      | .ok b =>
        if b.1 ≥ 0 then .ok b
        else
          launch env (argvOf r.token) bg (env.forkPid b.2.children.length) b.1
            { b.2 with children := b.2.children ++
                [⟨env.forkPid b.2.children.length, argvOf r.token, r.input, r.output⟩] }

/-- `do_stage`, in the shell process, on the slice `token` of `ntokens`
tokens.  The result is the pid, the slice afterwards and the state. -/
def do_stage (env : Env) (input output : Int) (token : List Token) (ntokens : Nat)
    (s : ShellState) : Except Halt (Int × List Token × ShellState) :=
  match do_redir env.fs token ntokens input output s.fds with
  | .error h => .error h
  | .ok r =>
    if r.n = 0 then .error .appError
    else
      match MaybeClose r.fds r.closed r.input with
      | .error h => .error h
      | .ok m1 =>
        match MaybeClose m1.2.1 m1.2.2 r.output with
        | .error h => .error h
        | .ok m2 =>
          .ok (env.forkPid s.children.length, r.token,
            { s with fds := m2.2.1, children := s.children ++
                [⟨env.forkPid s.children.length, argvOf r.token, r.input, r.output⟩] })

/-- `mkpipe`: the two ends get the two lowest descriptors that are not open.
The result is the read end, the write end and the open descriptors. -/
def mkpipe (fds : FdTable) : Nat × Nat × FdTable :=
  let r := lowestFree fds
  let fds1 : FdTable := (r, .other 1) :: fds
  let w := lowestFree fds1
  (r, w, (w, .other 2) :: fds1)

/-- The variables of `do_pipeline`. -/
structure Pipeline where
  token : List Token
  pgid : Int
  job : Int
  input : Int
  output : Int
  next_input : Int
  index_in_token : Nat
  index_in_part : Nat
  s : ShellState

/-- A stage of `do_pipeline` (lines 209-210 and 233-234): `do_stage` on the
slice that starts at `index_in_token`, the slice being written back. -/
def stage (env : Env) (p : Pipeline) (ntokens : Nat) : Except Halt (Int × Pipeline) :=
  match do_stage env p.input p.output (p.token.drop p.index_in_token) ntokens p.s with
  | .error h => .error h
  | .ok r => .ok (r.1, { p with token := p.token.take p.index_in_token ++ r.2.1, s := r.2.2 })

/-- `addproc(job, pid, token + index_in_token)` in `do_pipeline`. -/
def stageProc (env : Env) (p : Pipeline) (pid : Int) : Except Halt Pipeline :=
  match argvStrings (argvOf (p.token.drop p.index_in_token)) with
  | .error h => .error h
  | .ok strs =>
    match addproc env.codes p.s.jobs p.job pid strs with
    | .error h => .error h
    | .ok t => .ok { p with s := { p.s with jobs := t } }

/-- The body of the loop of `do_pipeline` for index `i` (lines 207-241). -/
def pipelineStep (env : Env) (ntokens : Nat) (bg : Bool) (p : Pipeline) (i : Nat) :
    Except Halt Pipeline :=
  match p.token[i]? with
  | none => .error .outOfBounds
  | some tok =>
    if tok = .T_PIPE then
      match stage env p p.index_in_part with
      | .error h => .error h
      | .ok r =>
        let added : Except Halt Pipeline :=
          if r.2.job = -1 then
            match addjob env.codes env.shell_tmodes r.2.s.jobs r.1 (if bg then 1 else 0) with
            | .error h => .error h
            | .ok a => .ok { r.2 with pgid := r.1, job := a.1, s := { r.2.s with jobs := a.2 } }
          else .ok r.2
        match added with
        | .error h => .error h
        | .ok p1 =>
          match stageProc env p1 r.1 with
          | .error h => .error h
          | .ok p2 =>
            let m := mkpipe p2.s.fds
            .ok { p2 with input := p2.next_input, next_input := m.1, output := m.2.1,
                          index_in_part := 0, index_in_token := i + 1,
                          s := { p2.s with fds := m.2.2 } }
    else if i + 1 = ntokens ∨ (i + 2 = ntokens ∧ p.token[ntokens - 1]? = some .T_BGJOB) then
      match Close p.s.fds p.next_input with
      | .error h => .error h
      | .ok f1 =>
        match Close f1 p.output with
        | .error h => .error h
        | .ok f2 =>
          match stage env { p with output := -1, s := { p.s with fds := f2 } }
              (p.index_in_part + 1) with
          | .error h => .error h
          | .ok r => stageProc env r.2 r.1
    else .ok { p with index_in_part := p.index_in_part + 1 }

/-- The loop of `do_pipeline` over the indices `is`. -/
def pipelineLoop (env : Env) (ntokens : Nat) (bg : Bool) : List Nat → Pipeline → Except Halt Pipeline
  | [], p => .ok p
  | i :: is, p =>
    match pipelineStep env ntokens bg p i with
    | .error h => .error h
    | .ok p1 => pipelineLoop env ntokens bg is p1

/-- `do_pipeline`, in the shell process. -/
def do_pipeline (env : Env) (token : List Token) (ntokens : Nat) (bg : Bool) (s : ShellState) :
    Except Halt (Int × ShellState) :=
  let m := mkpipe s.fds
  match pipelineLoop env ntokens bg (List.range ntokens)
      ⟨token, 0, -1, -1, m.2.1, m.1, 0, 0, { s with fds := m.2.2 }⟩ with
  | .error h => .error h
  | .ok p =>
    if bg then .ok (0, p.s)
    else
      match monitorjob env.codes env.cur_tmodes p.s.jobs env.sigs with
      | .error h => .error h
      | .ok r => .ok (r.1, { p.s with jobs := r.2 })

/-- `is_pipeline`. -/
def is_pipeline (token : List Token) (ntokens : Nat) : Bool :=
  (token.take ntokens).any (fun t => decide (t = .T_PIPE))

/-- `eval` on the token array that `tokenize` returns for the command line:
`tokens` followed by `NULL`.  The result is the state of the shell when the
command has been evaluated. -/
def eval (env : Env)
    (run : String → List Token → ShellState → Except Halt (Int × ShellState))
    (tokens : List Token) (s : ShellState) : Except Halt ShellState :=
  let token := tokens ++ [.T_NULL]
  let last := tokens.getLast?
  let bg : Bool := decide (last = some .T_BGJOB)
  let ntokens := if bg then tokens.length - 1 else tokens.length
  let token1 := if bg then token.set ntokens .T_NULL else token
  if ntokens > 0 then
    if is_pipeline token1 ntokens then (do_pipeline env token1 ntokens bg s).map Prod.snd
    else (do_job env run token1 ntokens bg s).map Prod.snd
  else .ok s

/-! ## External commands (`external_command`, `src/command.c` lines 110-147) -/

/-- What `external_command` does before the process ends: the paths given to
`execve`, in order, and the path whose `execve` succeeded (`none`: every
attempt failed, and the process ends with `exit(EXIT_FAILURE)`). -/
structure ExecTrace where
  attempts : List String
  image : Option String
deriving DecidableEq, Repr

/-- The value of `strcspn(curr, ":")`: the number of characters before the
first `:`. -/
def strcspn (curr : List Char) : Nat :=
  (curr.takeWhile (fun ch => decide (ch ≠ ':'))).length

/-- Lines 135-138: a `:` at the head is skipped. -/
def skipColon : List Char → List Char
  | ':' :: r => r
  | other => other

/-- The loop of lines 118-139 on the rest `curr` of PATH (the characters
before the terminating NUL); `exec` tells which paths `execve` accepts.  The
result is `none` when `fuel` iterations do not end the loop. -/
def pathLoop (argv0 : String) (exec : String → Bool) : Nat → List Char → Option ExecTrace
  | _, [] => some ⟨[], none⟩
  | 0, _ :: _ => none
  | fuel + 1, ch :: rest =>
    let curr := ch :: rest
    let len := strcspn curr
    let full_path := String.mk (curr.take len) ++ "/" ++ argv0
    if exec full_path then some ⟨[full_path], some full_path⟩
    else
      (pathLoop argv0 exec fuel (skipColon (curr.drop len))).map
        (fun t => ⟨full_path :: t.attempts, t.image⟩)

/-- `external_command`: `path` is the value of PATH (`none`: not set).  The
loop is given as many iterations as PATH has characters. -/
def external_command (path : Option (List Char)) (argv0 : String) (exec : String → Bool) :
    Option ExecTrace :=
  match path with
  | some p =>
    if '/' ∈ argv0.data then some ⟨[argv0], if exec argv0 then some argv0 else none⟩
    else pathLoop argv0 exec p.length p
  | none => some ⟨[argv0], if exec argv0 then some argv0 else none⟩

/-- The `:`-separated entries of PATH as the specification words them, the
empty ones included. -/
def splitColon : List Char → List (List Char)
  | [] => [[]]
  | ch :: rest =>
    if ch = ':' then [] :: splitColon rest
    else
      match splitColon rest with
      | [] => [[ch]]
      | p :: ps => (ch :: p) :: ps

/-- The entries without the last one when that one is empty. -/
def dropEmptyLast (es : List (List Char)) : List (List Char) :=
  if es.getLast? = some [] then es.dropLast else es

/-! ## The signal mask (`Sigprocmask` in `src/command.c`, `src/shell.c`) -/

/-- A mutation of the job table made by the main flow of the shell. -/
inductive Mutation where
  | addjob | addproc | deljob | movejob | setState
deriving DecidableEq, Repr

/-- The job table together with the flag that tells that SIGCHLD is blocked,
and the log of the mutations of the table, each with the value of the flag at
the time it was made. -/
structure Masked where
  jobs : Table
  blocked : Bool
  log : List (Mutation × Bool)
deriving DecidableEq, Repr

/-- `Sigprocmask(SIG_BLOCK, &sigchld_mask, &mask)`: the result is the mask
saved in `mask` and the state with SIGCHLD blocked. -/
def sigBlock (s : Masked) : Bool × Masked :=
  (s.blocked, { s with blocked := true })

/-- `Sigprocmask(SIG_SETMASK, &mask, NULL)`. -/
def sigSetmask (mask : Bool) (s : Masked) : Masked :=
  { s with blocked := mask }

/-- Whether the loop of `watchjobs` reaches `deljob` for a slot (lines
257-281). -/
def reachesDeljob (c : StateCodes) (which : Int) (job : Job) : Bool :=
  decide (job.pgid ≠ 0) && !(decide (which ≠ c.ALL) && decide (job.state ≠ which)) &&
    decide (job.state ≠ c.RUNNING) && decide (job.state ≠ c.STOPPED)

/-- `watchjobs` with the log: one `deljob` for each background slot for which
the loop reaches it, under the mask in force. -/
def watchjobsMasked (c : StateCodes) (which : Int) (s : Masked) : Except Halt Masked :=
  match watchjobs c which s.jobs with
  | .error h => .error h
  | .ok r =>
    .ok { s with jobs := r.1,
                 log := s.log ++ ((s.jobs.drop BG).filter (reachesDeljob c which)).map
                   (fun _ => (Mutation.deljob, s.blocked)) }

/-- `do_jobs` (`src/command.c` lines 35-38): `watchjobs(ALL)`, the mask being
left as it is. -/
def do_jobs (c : StateCodes) (s : Masked) : Except Halt Masked :=
  watchjobsMasked c c.ALL s

/-- Line 345 of `main`: the sweep `watchjobs(FINISHED)` after each command,
the mask being left as it is. -/
def promptSweep (c : StateCodes) (s : Masked) : Except Halt Masked :=
  watchjobsMasked c c.FINISHED s

/-- The mutations `resumejob` makes, in order: the state write, and with `bg`
clear the move to slot 0 followed by what the monitor does, `deljob` for a
job seen FINISHED and `movejob` for one seen STOPPED. -/
def resumeMutations (c : StateCodes) (t : Table) (j : Int) (bg : Int)
    (sigs : List (List (Int × WaitStatus))) : List Mutation :=
  match resolveJob c t j with
  | .error _ => []
  | .ok j1 =>
    if j1 ≥ t.length ∨ j1 < 0 then []
    else
      match t[j1.toNat]? with
      | none => []
      | some job =>
        if job.state = c.FINISHED then []
        else if bg ≠ 0 then [.setState]
        else
          match toForeground c t j1.toNat job with
          | .error _ => [.setState]
          | .ok t2 =>
            match monitorLoop c t2 0 sigs with
            | .error _ => [.setState, .movejob]
            | .ok r =>
              if r.1 = c.FINISHED then [.setState, .movejob, .deljob]
              else if r.1 = c.STOPPED then [.setState, .movejob, .movejob]
              else [.setState, .movejob]

/-- The body shared by `do_fg` and `do_bg` (`src/command.c` lines 45-70), for
the job number `j` read from the argument: SIGCHLD is blocked, `resumejob`
runs, and the saved mask is restored. -/
def resumeMasked (c : StateCodes) (cur_tmodes : Nat) (j : Int) (bg : Int)
    (sigs : List (List (Int × WaitStatus))) (s : Masked) : Except Halt Masked :=
  let b := sigBlock s
  match resumejob c cur_tmodes b.2.jobs j bg sigs with
  | .error h => .error h
  | .ok r =>
    .ok (sigSetmask b.1
      { b.2 with jobs := r.2,
                 log := b.2.log ++ (resumeMutations c b.2.jobs j bg sigs).map
                   (fun m => (m, b.2.blocked)) })

/-- `do_fg`: `resumejob(j, FG, &mask)` between the two calls of
`Sigprocmask`. -/
def do_fg (c : StateCodes) (cur_tmodes : Nat) (j : Int)
    (sigs : List (List (Int × WaitStatus))) (s : Masked) : Except Halt Masked :=
  resumeMasked c cur_tmodes j 0 sigs s

/-- `do_bg`: `resumejob(j, BG, &mask)` between the two calls of
`Sigprocmask`. -/
def do_bg (c : StateCodes) (cur_tmodes : Nat) (j : Int) (s : Masked) : Except Halt Masked :=
  resumeMasked c cur_tmodes j 1 [] s

/-- `do_kill` for the job number `j` read from the argument: `killjob(j)`
between the two calls of `Sigprocmask`; the table is only read. -/
def do_kill (c : StateCodes) (shell_tmodes : Nat) (shell_pid : Int) (j : Int) (s : Masked) :
    Except Halt Masked :=
  let b := sigBlock s
  match killjob c shell_tmodes shell_pid b.2.jobs j with
  | .error h => .error h
  | .ok _ => .ok (sigSetmask b.1 b.2)

/-! ## Concrete values used in the examples -/

/-- Codes for the examples: FINISHED 0, RUNNING 1, STOPPED 2, ALL -1. -/
def exCodes : StateCodes := ⟨0, 1, 2, -1⟩

/-- A running job of one process. -/
def exRunning : Job := ⟨5, [⟨5, 1, -1⟩], 0, 1, some "cat"⟩

/-- A stopped job of one process. -/
def exStopped : Job := ⟨7, [⟨7, 2, -1⟩], 0, 2, some "vi"⟩

/-- A finished job of one process. -/
def exFinished : Job := ⟨9, [⟨9, 0, 256⟩], 0, 0, some "ls"⟩

instance (fds : FdTable) (input output : Int) : Decidable (SlotsOk fds input output) := by
  unfold SlotsOk; infer_instance

/-- The token array of `a < f b > g > h`, with its terminator. -/
def exTokens : List Token :=
  [.word "a", .T_INPUT, .word "f", .word "b", .T_OUTPUT, .word "g", .T_OUTPUT, .word "h", .T_NULL]

/-- The descriptors of the shell at a prompt: 0, 1, 2 and the duplicate of the
terminal. -/
def exFds : FdTable := [(0, .other 0), (1, .other 0), (2, .other 0), (3, .other 0)]

/-- The result of `do_redir` on `exTokens` with the descriptors `exFds`. -/
def exRedir : Redir :=
  { token := [.word "a", .word "b", .T_NULL, .word "b", .T_OUTPUT, .word "g", .T_OUTPUT,
      .word "h", .T_NULL],
    mode := .T_NULL, n := 2, input := 4, output := 5,
    fds := (5, .file "h" true) :: (4, .file "f" false) :: exFds,
    closed := [5] }

/-- Surroundings for the examples: every path can be opened, the forks return
the pids 100, 101, .., and each child is reaped as exited during the wait. -/
def exEnv : Env :=
  ⟨exCodes, 0, 3, fun _ => true, fun k => 100 + k,
    [[(100, ⟨0, .exited⟩)], [(101, ⟨0, .exited⟩)]]⟩

/-- Built-in bodies for the examples: each returns 0 and changes nothing. -/
def exRun : String → List Token → ShellState → Except Halt (Int × ShellState) :=
  fun _ _ s => .ok (0, s)

/-- The shell at its first prompt: one free slot, the descriptors `exFds`, no
child. -/
def exShell : ShellState := ⟨[Job.zero], exFds, []⟩

/-- The stopped job of the examples when `resumejob` has just marked it
RUNNING: its process is still recorded as STOPPED. -/
def exResumed : Job := { exStopped with state := 1 }

/-- A stopped pipeline of two processes. -/
def exPipeStopped : Job := ⟨7, [⟨7, 2, -1⟩, ⟨8, 2, -1⟩], 0, 2, some "a | b"⟩

/-- The record of `exRunning` when its process has been reaped as stopped and
the current terminal modes, 3, have been saved in it. -/
def exEvacuated : Job := { exRunning with state := 2, proc := [⟨5, 2, -1⟩], tmodes := 3 }

/-! # Theorems -/

/-! ## Helper lemmas on the reaper -/

theorem tally_foldl (c : StateCodes) (hc : c.Distinct) (ps : List Proc) (k : Counts) :
    ps.foldl (tally c) k =
      ⟨k.running + ps.countP (fun p => decide (p.state = c.RUNNING)),
       k.stopped + ps.countP (fun p => decide (p.state = c.STOPPED)),
       k.finished + ps.countP (fun p => decide (p.state = c.FINISHED))⟩ := by
  obtain ⟨h1, h2, h3, -⟩ := hc
  induction ps generalizing k with
  | nil => simp
  | cons p ps ih =>
    rw [List.foldl_cons, ih]
    by_cases hr : p.state = c.RUNNING
    · have hs : p.state ≠ c.STOPPED := fun h => h1 (hr.symm.trans h)
      have hf : p.state ≠ c.FINISHED := fun h => h2 (hr.symm.trans h)
      simp [tally, hr, h1, h2, List.countP_cons]; omega
    · by_cases hs : p.state = c.STOPPED
      · have hf : p.state ≠ c.FINISHED := fun h => h3 (hs.symm.trans h)
        simp [tally, hs, h3, Ne.symm h1, List.countP_cons]; omega
      · by_cases hf : p.state = c.FINISHED
        · simp [tally, hf, Ne.symm h2, Ne.symm h3, List.countP_cons]; omega
        · simp [tally, hr, hs, hf, List.countP_cons]

theorem jobStateOf_finished (c : StateCodes) (hc : c.Distinct) (ps : List Proc)
    (h : ∀ p ∈ ps, p.state = c.FINISHED) : jobStateOf c ps = c.FINISHED := by
  have hcount : ps.countP (fun p => decide (p.state = c.FINISHED)) = ps.length :=
    List.countP_eq_length.mpr (by simpa using h)
  simp [jobStateOf, tally_foldl c hc, hcount]

theorem jobStateOf_stopped (c : StateCodes) (hc : c.Distinct) (ps : List Proc)
    (h : ¬ ∀ p ∈ ps, p.state = c.FINISHED) (hs : ∃ p ∈ ps, p.state = c.STOPPED) :
    jobStateOf c ps = c.STOPPED := by
  have hcount : ps.countP (fun p => decide (p.state = c.FINISHED)) ≠ ps.length := by
    intro hh; exact h (by simpa using List.countP_eq_length.mp hh)
  have hpos : 0 < ps.countP (fun p => decide (p.state = c.STOPPED)) :=
    List.countP_pos_iff.mpr (by simpa using hs)
  simp [jobStateOf, tally_foldl c hc, hcount, hpos]

theorem jobStateOf_running (c : StateCodes) (hc : c.Distinct) (ps : List Proc)
    (h : ¬ ∀ p ∈ ps, p.state = c.FINISHED) (hs : ¬ ∃ p ∈ ps, p.state = c.STOPPED) :
    jobStateOf c ps = c.RUNNING := by
  have hcount : ps.countP (fun p => decide (p.state = c.FINISHED)) ≠ ps.length := by
    intro hh; exact h (by simpa using List.countP_eq_length.mp hh)
  have hpos : ps.countP (fun p => decide (p.state = c.STOPPED)) = 0 := by
    by_contra hne
    exact hs (by simpa using List.countP_pos_iff.mp (Nat.pos_of_ne_zero hne))
  simp [jobStateOf, tally_foldl c hc, hcount, hpos]

theorem markProc_pids (c : StateCodes) (pid : Int) (st : WaitStatus) (ps : List Proc) :
    (markProc c pid st ps).map Proc.pid = ps.map Proc.pid := by
  induction ps with
  | nil => rfl
  | cons p ps ih =>
    by_cases h : p.pid = pid
    · cases hk : st.kind <;> simp [markProc, h, setStatus, hk]
    · simp [markProc, h, ih]

theorem SameJob.refl (a : Job) : SameJob a a := ⟨rfl, rfl, rfl, rfl⟩

theorem SameJob.trans {a b d : Job} (h1 : SameJob a b) (h2 : SameJob b d) : SameJob a d :=
  ⟨h2.1.trans h1.1, h2.2.1.trans h1.2.1, h2.2.2.1.trans h1.2.2.1, h2.2.2.2.trans h1.2.2.2⟩

theorem reapInJob_same (c : StateCodes) (pid : Int) (st : WaitStatus) (job : Job) :
    SameJob job (reapInJob c pid st job) := by
  unfold reapInJob
  split
  · exact SameJob.refl _
  · exact ⟨rfl, rfl, rfl, markProc_pids c pid st job.proc⟩

theorem sigchld_handler_length (c : StateCodes) (evs : List (Int × WaitStatus)) (t : Table) :
    (sigchld_handler c t evs).length = t.length := by
  induction evs generalizing t with
  | nil => rfl
  | cons e evs ih =>
    have := ih (reap c t e)
    simpa [sigchld_handler, reap] using this

theorem sigchld_handler_same (c : StateCodes) (evs : List (Int × WaitStatus)) (t : Table)
    (j : Nat) (J : Job) (hJ : t[j]? = some J) :
    ∃ J1, (sigchld_handler c t evs)[j]? = some J1 ∧ SameJob J J1 := by
  induction evs generalizing t J with
  | nil => exact ⟨J, hJ, SameJob.refl J⟩
  | cons e evs ih =>
    have h1 : (reap c t e)[j]? = some (reapInJob c e.1 e.2 J) := by
      simp [reap, hJ]
    obtain ⟨J1, hJ1, hs⟩ := ih (reap c t e) (reapInJob c e.1 e.2 J) h1
    exact ⟨J1, hJ1, (reapInJob_same c e.1 e.2 J).trans hs⟩

theorem sigchld_handler_snoc (c : StateCodes) (t : Table) (evs : List (Int × WaitStatus))
    (e : Int × WaitStatus) :
    sigchld_handler c t (evs ++ [e]) = reap c (sigchld_handler c t evs) e := by
  simp [sigchld_handler, List.foldl_append]

/-! ## C1 -/

/-- C1: a job has two RUNNING processes and the second is reported stopped;
the handler leaves the job STOPPED, where the aggregate of the specification
(any process RUNNING gives RUNNING) is RUNNING, and where the comment on the
field `state` has it change when the live processes have the same state.  By
the same rule, `fg` on a stopped pipeline of two processes ends as soon as the
first `continued` is reaped: the job is filed as STOPPED in slot 1 while its
process 7 is recorded as RUNNING. -/
theorem sigchld_handler_running_and_stopped :
    ((sigchld_handler ⟨0, 1, 2, -1⟩
        [Job.zero, ⟨5, [⟨5, 1, -1⟩, ⟨6, 1, -1⟩], 0, 1, some "a | b"⟩]
        [(6, ⟨4991, .stopped⟩)])[1]?).map
      (fun J => (J.proc.map Proc.state, J.state, latticeAggregate ⟨0, 1, 2, -1⟩ J.proc))
      = some ([1, 2], 2, 1) ∧
    resumejob exCodes 3 [Job.zero, exPipeStopped] 1 0 [[(7, ⟨65535, .continued⟩)]]
      = .ok (true, [Job.zero, ⟨7, [⟨7, 1, -1⟩, ⟨8, 2, -1⟩], 3, 2, some "a | b"⟩]) := by
  refine ⟨by decide, by rfl⟩

/-- The state the handler computes: after it has reaped at least one status
change, every occupied job J has the state FINISHED if all its processes are
FINISHED, otherwise STOPPED if some process is STOPPED, otherwise RUNNING. -/
theorem sigchld_handler_job_state (c : StateCodes) (hc : c.Distinct) (t : Table)
    (e : Int × WaitStatus) (evs : List (Int × WaitStatus)) (j : Nat) (J : Job)
    (hJ : t[j]? = some J) (hocc : J.pgid ≠ 0) :
    ∃ J1, (sigchld_handler c t (e :: evs))[j]? = some J1 ∧ J1.pgid = J.pgid ∧
      ((∀ p ∈ J1.proc, p.state = c.FINISHED) → J1.state = c.FINISHED) ∧
      ((¬ ∀ p ∈ J1.proc, p.state = c.FINISHED) → (∃ p ∈ J1.proc, p.state = c.STOPPED) →
        J1.state = c.STOPPED) ∧
      ((¬ ∀ p ∈ J1.proc, p.state = c.FINISHED) → (¬ ∃ p ∈ J1.proc, p.state = c.STOPPED) →
        J1.state = c.RUNNING) := by
  obtain ⟨init, last, hsplit⟩ : ∃ init last, e :: evs = init ++ [last] :=
    ⟨(e :: evs).dropLast, (e :: evs).getLast (by simp),
      (List.dropLast_append_getLast (by simp)).symm⟩
  rw [hsplit, sigchld_handler_snoc]
  obtain ⟨J0, hJ0, hsame⟩ := sigchld_handler_same c init t j J hJ
  have hocc0 : J0.pgid ≠ 0 := by rw [hsame.1]; exact hocc
  refine ⟨reapInJob c last.1 last.2 J0, by simp [reap, hJ0], ?_, ?_, ?_, ?_⟩
  · exact ((reapInJob_same c last.1 last.2 J0).1).trans hsame.1
  all_goals
    simp only [reapInJob, hocc0, if_false]
  · exact jobStateOf_finished c hc _
  · exact jobStateOf_stopped c hc _
  · exact jobStateOf_running c hc _

/-- The state the handler computes, on a job of two RUNNING processes of which
the second is reported stopped. -/
theorem sigchld_handler_job_state_witness :
    ∃ J1, (sigchld_handler ⟨0, 1, 2, -1⟩
        [Job.zero, ⟨5, [⟨5, 1, -1⟩, ⟨6, 1, -1⟩], 0, 1, some "a | b"⟩]
        ((6, ⟨4991, .stopped⟩) :: []))[1]? = some J1 ∧ J1.pgid = 5 ∧
      ((∀ p ∈ J1.proc, p.state = 0) → J1.state = 0) ∧
      ((¬ ∀ p ∈ J1.proc, p.state = 0) → (∃ p ∈ J1.proc, p.state = 2) → J1.state = 2) ∧
      ((¬ ∀ p ∈ J1.proc, p.state = 0) → (¬ ∃ p ∈ J1.proc, p.state = 2) → J1.state = 1) :=
  sigchld_handler_job_state ⟨0, 1, 2, -1⟩ (by decide)
    [Job.zero, ⟨5, [⟨5, 1, -1⟩, ⟨6, 1, -1⟩], 0, 1, some "a | b"⟩]
    (6, ⟨4991, .stopped⟩) [] 1 ⟨5, [⟨5, 1, -1⟩, ⟨6, 1, -1⟩], 0, 1, some "a | b"⟩ rfl (by decide)

/-! ## C3 -/

theorem firstFree_some (l : List Job) (b j : Nat) (h : firstFree l b = some j) :
    ∃ i, j = b + i ∧ (∃ J, l[i]? = some J ∧ J.pgid = 0) ∧
      ∀ k, k < i → ∃ J, l[k]? = some J ∧ J.pgid ≠ 0 := by
  induction l generalizing b with
  | nil => simp [firstFree] at h
  | cons a l ih =>
    by_cases ha : a.pgid = 0
    · simp [firstFree, ha] at h
      exact ⟨0, by omega, ⟨a, by simp, ha⟩, by intro k hk; omega⟩
    · simp [firstFree, ha] at h
      obtain ⟨i, hj, hfree, hocc⟩ := ih (b + 1) h
      refine ⟨i + 1, by omega, by simpa using hfree, ?_⟩
      intro k hk
      cases k with
      | zero => exact ⟨a, by simp, ha⟩
      | succ k => simpa using hocc k (by omega)

theorem firstFree_none (l : List Job) (b : Nat) (h : firstFree l b = none) :
    ∀ (k : Nat) (J : Job), l[k]? = some J → J.pgid ≠ 0 := by
  induction l generalizing b with
  | nil => intro k J hk; simp at hk
  | cons a l ih =>
    by_cases ha : a.pgid = 0
    · simp [firstFree, ha] at h
    · simp [firstFree, ha] at h
      intro k J hk
      cases k with
      | zero => simp at hk; exact hk ▸ ha
      | succ k => exact ih (b + 1) h k J (by simpa using hk)

/-- What `allocjob` returns: a free slot `j ≥ 1` of the table below which
every background slot is occupied, the table being unchanged; or, when no
background slot is free, the old size, the table having one more slot, which
is zero-filled. -/
theorem allocjob_spec (t : Table) :
    (∃ j, allocjob t = (j, t) ∧ 1 ≤ j ∧ j < t.length ∧ (∃ J, t[j]? = some J ∧ J.pgid = 0) ∧
        ∀ k, 1 ≤ k → k < j → ∃ J, t[k]? = some J ∧ J.pgid ≠ 0) ∨
    (allocjob t = (t.length, t ++ [Job.zero]) ∧
        ∀ k, 1 ≤ k → k < t.length → ∃ J, t[k]? = some J ∧ J.pgid ≠ 0) := by
  unfold allocjob
  cases hff : firstFree (List.drop BG t) BG with
  | some j =>
    left
    obtain ⟨i, hj, ⟨J, hJ, hfree⟩, hocc⟩ := firstFree_some _ _ _ hff
    simp only [BG, List.getElem?_drop] at hJ hocc hj
    have hlt : 1 + i < t.length := by
      by_contra hge
      rw [List.getElem?_eq_none (by omega)] at hJ
      exact absurd hJ (by simp)
    refine ⟨j, rfl, by omega, by omega, ⟨J, by rw [hj]; exact hJ, hfree⟩, ?_⟩
    intro k hk1 hkj
    have := hocc (k - 1) (by omega)
    rwa [show 1 + (k - 1) = k by omega] at this
  | none =>
    right
    refine ⟨rfl, ?_⟩
    intro k hk1 hk
    have hget : t[k]? = some t[k] := List.getElem?_eq_getElem hk
    refine ⟨t[k], hget, ?_⟩
    apply firstFree_none _ _ hff (k - 1)
    simp only [BG, List.getElem?_drop]
    rwa [show 1 + (k - 1) = k by omega]

/-- C3: on a table with at least the foreground slot, `addjob` returns a slot
`j` and a table `t1`.  With `bg` set, `j ≥ 1`, every slot `1..j-1` was
occupied, and either slot `j` was a free slot of the table, whose size is
unchanged, or no background slot was free, `j` is the old size and the table
has exactly one slot more.  With `bg` clear, `j = 0`.  In both cases slot `j`
afterwards has the given pgid, state RUNNING, no processes and no command,
and every other slot is unchanged. -/
theorem addjob_spec (c : StateCodes) (shell_tmodes : Nat) (t : Table) (pgid bg : Int)
    (hn : 1 ≤ t.length) :
    ∃ j t1, addjob c shell_tmodes t pgid bg = .ok (j, t1) ∧
      (bg ≠ 0 → 1 ≤ j ∧ (∀ k, 1 ≤ k → k < j → ∃ J, t[k]? = some J ∧ J.pgid ≠ 0) ∧
        ((j < t.length ∧ (∃ J, t[j]? = some J ∧ J.pgid = 0) ∧ t1.length = t.length) ∨
         ((∀ k, 1 ≤ k → k < t.length → ∃ J, t[k]? = some J ∧ J.pgid ≠ 0) ∧
            j = t.length ∧ t1.length = t.length + 1))) ∧
      (bg = 0 → j = 0 ∧ t1.length = t.length) ∧
      t1[j]? = some ⟨pgid, [], shell_tmodes, c.RUNNING, none⟩ ∧
      (∀ k, k ≠ j → k < t.length → t1[k]? = t[k]?) := by
  by_cases hbg : bg = 0
  · refine ⟨0, t.set 0 ⟨pgid, [], shell_tmodes, c.RUNNING, none⟩, ?_, ?_, ?_, ?_, ?_⟩
    · simp only [addjob, hbg, FG]
      simp
      intro h; simp [h] at hn
    · intro h; exact absurd hbg h
    · intro _; simp
    · simp only [List.getElem?_set]
      simp
      intro h; simp [h] at hn
    · intro k hk _; simp [List.getElem?_set, Ne.symm hk]
  · rcases allocjob_spec t with ⟨j, hal, hj1, hjlt, hfree, hocc⟩ | ⟨hal, hocc⟩
    · refine ⟨j, t.set j ⟨pgid, [], shell_tmodes, c.RUNNING, none⟩, ?_, ?_, ?_, ?_, ?_⟩
      · simp [addjob, hbg, hal, hjlt]
      · intro _; exact ⟨hj1, hocc, Or.inl ⟨hjlt, hfree, by simp⟩⟩
      · intro h; exact absurd h hbg
      · simp [List.getElem?_set, hjlt]
      · intro k hk _; simp [List.getElem?_set, Ne.symm hk]
    · refine ⟨t.length, (t ++ [Job.zero]).set t.length
          ⟨pgid, [], shell_tmodes, c.RUNNING, none⟩, ?_, ?_, ?_, ?_, ?_⟩
      · simp [addjob, hbg, hal]
      · intro _; exact ⟨hn, hocc, Or.inr ⟨hocc, rfl, by simp⟩⟩
      · intro h; exact absurd h hbg
      · simp [List.getElem?_set]
      · intro k hk hlt
        simp [List.getElem?_set, Ne.symm hk, List.getElem?_append_left hlt]

/-- C3 at a concrete table: slot 1 is occupied and slot 2 is free. -/
theorem addjob_spec_witness :
    ∃ j t1, addjob ⟨0, 1, 2, -1⟩ 7 [Job.zero, ⟨5, [⟨5, 1, -1⟩], 0, 1, some "a"⟩, Job.zero] 9 1
        = .ok (j, t1) ∧
      ((1 : Int) ≠ 0 → 1 ≤ j ∧
        (∀ k, 1 ≤ k → k < j → ∃ J,
          [Job.zero, ⟨5, [⟨5, 1, -1⟩], 0, 1, some "a"⟩, Job.zero][k]? = some J ∧ J.pgid ≠ 0) ∧
        ((j < [Job.zero, (⟨5, [⟨5, 1, -1⟩], 0, 1, some "a"⟩ : Job), Job.zero].length ∧
          (∃ J, [Job.zero, ⟨5, [⟨5, 1, -1⟩], 0, 1, some "a"⟩, Job.zero][j]? = some J ∧
            J.pgid = 0) ∧
          t1.length = [Job.zero, (⟨5, [⟨5, 1, -1⟩], 0, 1, some "a"⟩ : Job), Job.zero].length) ∨
         ((∀ k, 1 ≤ k →
            k < [Job.zero, (⟨5, [⟨5, 1, -1⟩], 0, 1, some "a"⟩ : Job), Job.zero].length →
            ∃ J, [Job.zero, ⟨5, [⟨5, 1, -1⟩], 0, 1, some "a"⟩, Job.zero][k]? = some J ∧
              J.pgid ≠ 0) ∧
            j = [Job.zero, (⟨5, [⟨5, 1, -1⟩], 0, 1, some "a"⟩ : Job), Job.zero].length ∧
            t1.length =
              [Job.zero, (⟨5, [⟨5, 1, -1⟩], 0, 1, some "a"⟩ : Job), Job.zero].length + 1))) ∧
      ((1 : Int) = 0 → j = 0 ∧
        t1.length = [Job.zero, (⟨5, [⟨5, 1, -1⟩], 0, 1, some "a"⟩ : Job), Job.zero].length) ∧
      t1[j]? = some ⟨9, [], 7, 1, none⟩ ∧
      (∀ k, k ≠ j →
        k < [Job.zero, (⟨5, [⟨5, 1, -1⟩], 0, 1, some "a"⟩ : Job), Job.zero].length →
        t1[k]? = [Job.zero, ⟨5, [⟨5, 1, -1⟩], 0, 1, some "a"⟩, Job.zero][k]?) :=
  addjob_spec ⟨0, 1, 2, -1⟩ 7 [Job.zero, ⟨5, [⟨5, 1, -1⟩], 0, 1, some "a"⟩, Job.zero] 9 1
    (by decide)

/-! ## The foreground monitor -/

theorem jobStateOf_valid (c : StateCodes) (ps : List Proc) : ValidState c (jobStateOf c ps) := by
  unfold jobStateOf ValidState
  simp only
  split
  · exact Or.inr (Or.inr rfl)
  · split
    · exact Or.inr (Or.inl rfl)
    · exact Or.inl rfl

theorem reapInJob_valid (c : StateCodes) (pid : Int) (st : WaitStatus) (job : Job)
    (h : ValidState c job.state) : ValidState c (reapInJob c pid st job).state := by
  unfold reapInJob
  split
  · exact h
  · exact jobStateOf_valid c _

theorem sigchld_handler_valid (c : StateCodes) (evs : List (Int × WaitStatus)) (t : Table)
    (j : Nat) (J : Job) (hJ : t[j]? = some J) (hv : ValidState c J.state) :
    ∃ J1, (sigchld_handler c t evs)[j]? = some J1 ∧ SameJob J J1 ∧ ValidState c J1.state := by
  induction evs generalizing t J with
  | nil => exact ⟨J, hJ, SameJob.refl J, hv⟩
  | cons e evs ih =>
    have h1 : (reap c t e)[j]? = some (reapInJob c e.1 e.2 J) := by
      simp [reap, hJ]
    obtain ⟨J1, hJ1, hs, hv1⟩ :=
      ih (reap c t e) (reapInJob c e.1 e.2 J) h1 (reapInJob_valid c e.1 e.2 J hv)
    exact ⟨J1, hJ1, (reapInJob_same c e.1 e.2 J).trans hs, hv1⟩

theorem jobstate_spec (c : StateCodes) (t : Table) (j : Nat) (ec : Int) (J : Job)
    (hJ : t[j]? = some J) (r : Int × Int × Table) (h : jobstate c t j ec = .ok r) :
    (J.state = c.FINISHED ∧ r.1 = c.FINISHED ∧
        r.2.2 = t.set j { J with pgid := 0, command := none, proc := [] }) ∨
    (J.state ≠ c.FINISHED ∧ r = (J.state, ec, t)) := by
  unfold jobstate at h
  rw [hJ] at h
  by_cases hf : J.state = c.FINISHED
  · left
    simp only [hf, if_true] at h
    cases hx : exitcode J with
    | error e => simp [hx] at h
    | ok x =>
      simp only [hx, deljob, hf, if_true] at h
      cases h
      exact ⟨hf, rfl, by simp [hf]⟩
  · right
    simp only [hf, if_false] at h
    cases h
    exact ⟨hf, rfl⟩

/-- The loop of the monitor, when it ends, has seen slot 0 FINISHED and
deleted it, or STOPPED and left it in place; the other slots keep their
group, command, terminal modes and pids. -/
theorem monitorLoop_spec (c : StateCodes) (hc : c.Distinct)
    (sigs : List (List (Int × WaitStatus))) :
    ∀ (t : Table) (ec : Int) (J : Job), t[0]? = some J → J.pgid ≠ 0 → ValidState c J.state →
      ∀ r, monitorLoop c t ec sigs = .ok r →
        r.2.2.length = t.length ∧
        (∀ (k : Nat) (K : Job), 1 ≤ k → t[k]? = some K →
          ∃ K1, r.2.2[k]? = some K1 ∧ SameJob K K1) ∧
        ((r.1 = c.FINISHED ∧ ∃ Z, r.2.2[0]? = some Z ∧ Z.Free) ∨
         (r.1 = c.STOPPED ∧ ∃ J1, r.2.2[0]? = some J1 ∧ SameJob J J1 ∧ J1.state = c.STOPPED)) := by
  obtain ⟨h1, h2, h3, -⟩ := hc
  have hlen0 : ∀ (t : Table) (J : Job), t[0]? = some J → 0 < t.length := by
    intro t J h
    by_contra hh
    rw [List.getElem?_eq_none (by omega)] at h
    exact absurd h (by simp)
  have key : ∀ (t : Table) (ec : Int) (J : Job), t[0]? = some J → ValidState c J.state →
      ∀ r, jobstate c t 0 ec = .ok r → r.1 ≠ c.RUNNING →
        r.2.2.length = t.length ∧
        (∀ (k : Nat) (K : Job), 1 ≤ k → t[k]? = some K →
          ∃ K1, r.2.2[k]? = some K1 ∧ SameJob K K1) ∧
        ((r.1 = c.FINISHED ∧ ∃ Z, r.2.2[0]? = some Z ∧ Z.Free) ∨
         (r.1 = c.STOPPED ∧ ∃ J1, r.2.2[0]? = some J1 ∧ SameJob J J1 ∧
            J1.state = c.STOPPED)) := by
    intro t ec J hJ hv r hr hnr
    rcases jobstate_spec c t 0 ec J hJ r hr with ⟨hf, hr1, hr2⟩ | ⟨hf, hreq⟩
    · refine ⟨by rw [hr2]; simp, ?_,
        Or.inl ⟨hr1, { J with pgid := 0, command := none, proc := [] }, ?_, rfl, rfl, rfl⟩⟩
      · intro k K hk hK
        refine ⟨K, ?_, SameJob.refl K⟩
        rw [hr2, List.getElem?_set_ne (by omega)]
        exact hK
      · rw [hr2]
        simp [List.getElem?_set, hlen0 t J hJ]
    · subst hreq
      refine ⟨rfl, fun k K _ hK => ⟨K, hK, SameJob.refl K⟩, Or.inr ⟨?_, J, hJ, SameJob.refl J, ?_⟩⟩
      all_goals
        rcases hv with hv | hv | hv
        · exact absurd hv hnr
        · exact hv
        · exact absurd hv hf
  induction sigs with
  | nil =>
    intro t ec J hJ _ hv r hr
    unfold monitorLoop at hr
    cases hjs : jobstate c t 0 ec with
    | error e => simp [hjs] at hr
    | ok r0 =>
      simp only [hjs] at hr
      by_cases hrun : r0.1 = c.RUNNING
      · simp [hrun] at hr
      · simp only [hrun, if_false] at hr
        have hr0 : r0 = r := Except.ok.inj hr
        subst hr0
        exact key t ec J hJ hv r0 hjs hrun
  | cons evs rest ih =>
    intro t ec J hJ hocc hv r hr
    unfold monitorLoop at hr
    cases hjs : jobstate c t 0 ec with
    | error e => simp [hjs] at hr
    | ok r0 =>
      simp only [hjs] at hr
      by_cases hrun : r0.1 = c.RUNNING
      · simp only [hrun, if_true] at hr
        rcases jobstate_spec c t 0 ec J hJ r0 hjs with ⟨_, hr1, _⟩ | ⟨_, hreq⟩
        · exact absurd (hr1.symm.trans hrun) (Ne.symm h2)
        · subst hreq
          obtain ⟨J1, hJ1, hs1, hv1⟩ := sigchld_handler_valid c evs t 0 J hJ hv
          have hocc1 : J1.pgid ≠ 0 := by rw [hs1.1]; exact hocc
          obtain ⟨hl, hfr, hcase⟩ := ih (sigchld_handler c t evs) ec J1 hJ1 hocc1 hv1 r hr
          refine ⟨by rw [hl, sigchld_handler_length], ?_, ?_⟩
          · intro k K hk hK
            obtain ⟨K1, hK1, hsK⟩ := sigchld_handler_same c evs t k K hK
            obtain ⟨K2, hK2, hsK2⟩ := hfr k K1 hk hK1
            exact ⟨K2, hK2, hsK.trans hsK2⟩
          · rcases hcase with hfin | ⟨hst, J2, hJ2, hs2, hst2⟩
            · exact Or.inl hfin
            · exact Or.inr ⟨hst, J2, hJ2, hs1.trans hs2, hst2⟩
      · simp only [hrun, if_false] at hr
        have hr0 : r0 = r := Except.ok.inj hr
        subst hr0
        exact key t ec J hJ hv r0 hjs hrun

theorem getElem?_some_lt {α : Type} (l : List α) (i : Nat) (a : α) (h : l[i]? = some a) :
    i < l.length := by
  by_contra hh
  rw [List.getElem?_eq_none (by omega)] at h
  exact absurd h (by simp)

/-- The evacuation of slot 0 always succeeds: the record, with the current
terminal modes, goes to the lowest free background slot `k`, or to a new slot
when none is free; slot 0 is zero-filled and the other slots are unchanged. -/
theorem evacuate_spec (cur : Nat) (t : Table) (J : Job) (hJ : t[0]? = some J) :
    ∃ t1 k, evacuate cur t = .ok t1 ∧ 1 ≤ k ∧
      (∀ i, 1 ≤ i → i < k → ∃ K, t[i]? = some K ∧ K.pgid ≠ 0) ∧
      ((k < t.length ∧ (∃ K, t[k]? = some K ∧ K.pgid = 0) ∧ t1.length = t.length) ∨
       (k = t.length ∧ t1.length = t.length + 1)) ∧
      t1[k]? = some { J with tmodes := cur } ∧
      t1[0]? = some Job.zero ∧
      (∀ i, 1 ≤ i → i ≠ k → i < t.length → t1[i]? = t[i]?) := by
  have hpos : 0 < t.length := getElem?_some_lt t 0 J hJ
  have hset : ∀ i, 1 ≤ i → (t.set 0 { J with tmodes := cur })[i]? = t[i]? := by
    intro i hi
    rw [List.getElem?_set_ne (by omega)]
  have h0 : (t.set 0 { J with tmodes := cur })[0]? = some { J with tmodes := cur } := by
    simp [List.getElem?_set, hpos]
  unfold evacuate
  rw [hJ]
  simp only
  rcases allocjob_spec (t.set 0 { J with tmodes := cur }) with
    ⟨j, hal, hj1, hjlt, ⟨K, hK, hfree⟩, hocc⟩ | ⟨hal, hocc⟩
  · rw [hal]
    simp only [List.length_set] at hjlt
    refine ⟨((t.set 0 { J with tmodes := cur }).set j { J with tmodes := cur }).set 0 Job.zero,
      j, ?_, hj1, ?_, Or.inl ⟨hjlt, ⟨K, by rw [← hset j hj1]; exact hK, hfree⟩, by simp⟩,
      ?_, ?_, ?_⟩
    · simp [movejob, h0, hK, hfree]
    · intro i hi hij
      rw [← hset i hi]
      exact hocc i hi hij
    · rw [List.getElem?_set_ne (by omega)]
      simp [List.getElem?_set, hjlt]
    · simp [List.getElem?_set, hpos]
    · intro i hi hik _
      rw [List.getElem?_set_ne (by omega), List.getElem?_set_ne (Ne.symm hik), hset i hi]
  · rw [hal]
    simp only [List.length_set] at hocc ⊢
    have hz : (t.set 0 { J with tmodes := cur } ++ [Job.zero])[t.length]? = some Job.zero := by
      rw [List.getElem?_append_right (by simp)]
      simp
    have hz0 : (t.set 0 { J with tmodes := cur } ++ [Job.zero])[0]?
        = some { J with tmodes := cur } := by
      rw [List.getElem?_append_left (by simpa using hpos)]
      exact h0
    refine ⟨((t.set 0 { J with tmodes := cur } ++ [Job.zero]).set t.length
        { J with tmodes := cur }).set 0 Job.zero, t.length, ?_, hpos, ?_,
      Or.inr ⟨rfl, by simp⟩, ?_, ?_, ?_⟩
    · unfold movejob
      rw [hz0, hz]
      simp [Job.zero]
    · intro i hi hit
      rw [← hset i hi]
      exact hocc i hi hit
    · rw [List.getElem?_set_ne (by omega)]
      simp [List.getElem?_set]
    · simp [List.getElem?_set]
    · intro i hi hik hit
      rw [List.getElem?_set_ne (by omega), List.getElem?_set_ne (Ne.symm hik),
        List.getElem?_append_left (by simpa using hit), hset i hi]

/-- What `monitorjob` leaves when it returns: slot 0 is free; the foreground
job was seen FINISHED and deleted, or seen STOPPED and moved to the lowest
free background slot `k` (a new slot when none is free). -/
theorem monitorjob_spec (c : StateCodes) (hc : c.Distinct) (cur : Nat) (t : Table)
    (sigs : List (List (Int × WaitStatus))) (J : Job)
    (hJ : t[0]? = some J) (hocc : J.pgid ≠ 0) (hv : ValidState c J.state)
    (ec : Int) (t1 : Table) (h : monitorjob c cur t sigs = .ok (ec, t1)) :
    (∃ Z, t1[0]? = some Z ∧ Z.Free) ∧
    (((∃ r, monitorLoop c t 0 sigs = .ok r ∧ r.1 = c.FINISHED) ∧ t1.length = t.length ∧
        (∀ (k : Nat) (K : Job), 1 ≤ k → t[k]? = some K →
          ∃ K1, t1[k]? = some K1 ∧ SameJob K K1)) ∨
     ((∃ r, monitorLoop c t 0 sigs = .ok r ∧ r.1 = c.STOPPED) ∧
        ∃ k M, 1 ≤ k ∧
          (∀ i, 1 ≤ i → i < k → ∃ K, t[i]? = some K ∧ K.pgid ≠ 0) ∧
          ((k < t.length ∧ (∃ K, t[k]? = some K ∧ K.pgid = 0) ∧ t1.length = t.length) ∨
           (k = t.length ∧ t1.length = t.length + 1)) ∧
          t1[k]? = some M ∧ M.pgid = J.pgid ∧ M.command = J.command ∧
          M.proc.map Proc.pid = J.proc.map Proc.pid ∧ M.state = c.STOPPED ∧ M.tmodes = cur ∧
          (∀ (i : Nat) (K : Job), 1 ≤ i → i ≠ k → t[i]? = some K →
            ∃ K1, t1[i]? = some K1 ∧ SameJob K K1))) := by
  unfold monitorjob at h
  cases hloop : monitorLoop c t 0 sigs with
  | error e => simp [hloop] at h
  | ok r =>
    simp only [hloop] at h
    obtain ⟨hlen, hframe, hcase⟩ := monitorLoop_spec c hc sigs t 0 J hJ hocc hv r hloop
    rcases hcase with ⟨hfin, Z, hZ, hZfree⟩ | ⟨hst, J1, hJ1, hs1, hst1⟩
    · have hns : r.1 ≠ c.STOPPED := by rw [hfin]; exact Ne.symm hc.2.2.1
      simp only [hns, if_false] at h
      have ht1 : r.2.2 = t1 := (Prod.mk.inj (Except.ok.inj h)).2
      subst ht1
      exact ⟨⟨Z, hZ, hZfree⟩, Or.inl ⟨⟨r, rfl, hfin⟩, hlen, hframe⟩⟩
    · simp only [hst, if_true] at h
      obtain ⟨t2, k, hev, hk1, hbelow, hslot, hk, h0, hrest⟩ := evacuate_spec cur r.2.2 J1 hJ1
      simp only [hev] at h
      have ht1 : t2 = t1 := (Prod.mk.inj (Except.ok.inj h)).2
      subst ht1
      have hback : ∀ (i : Nat) (K1 : Job), 1 ≤ i → r.2.2[i]? = some K1 →
          ∃ K, t[i]? = some K ∧ SameJob K K1 := by
        intro i K1 hi hK1
        have hlt : i < t.length := by
          rw [← hlen]; exact getElem?_some_lt _ _ _ hK1
        obtain ⟨K2, hK2, hs2⟩ := hframe i t[i] hi (List.getElem?_eq_getElem hlt)
        rw [hK1] at hK2
        cases hK2
        exact ⟨t[i], List.getElem?_eq_getElem hlt, hs2⟩
      refine ⟨⟨Job.zero, h0, rfl, rfl, rfl⟩, Or.inr ⟨⟨r, rfl, hst⟩, k, { J1 with tmodes := cur },
        hk1, ?_, ?_, hk, hs1.1, hs1.2.1, hs1.2.2.2, hst1, rfl, ?_⟩⟩
      · intro i hi hik
        obtain ⟨K1, hK1, hne⟩ := hbelow i hi hik
        obtain ⟨K, hK, hs⟩ := hback i K1 hi hK1
        exact ⟨K, hK, by rw [← hs.1]; exact hne⟩
      · rcases hslot with ⟨hklt, ⟨K1, hK1, hfree⟩, hl⟩ | ⟨hkeq, hl⟩
        · obtain ⟨K, hK, hs⟩ := hback k K1 hk1 hK1
          exact Or.inl ⟨by rw [← hlen]; exact hklt, ⟨K, hK, by rw [← hs.1]; exact hfree⟩,
            by rw [hl, hlen]⟩
        · exact Or.inr ⟨by rw [hkeq, hlen], by rw [hl, hlen]⟩
      · intro i K hi hik hK
        obtain ⟨K1, hK1, hs⟩ := hframe i K hi hK
        refine ⟨K1, ?_, hs⟩
        rw [hrest i hi hik (getElem?_some_lt _ _ _ hK1)]
        exact hK1

/-! ## C4 -/

/-- C4, as stated, fails: the table has the foreground slot only, so that no
background slot is free; when the foreground job is reported stopped,
`monitorjob` returns with the job in slot 1, by which the table has
grown, and which was not a free slot of the table before. -/
theorem monitorjob_grows_table :
    monitorjob exCodes 3 [exRunning] [[(5, ⟨4991, .stopped⟩)]]
      = .ok (0, [Job.zero, exEvacuated]) ∧
    ∀ k, 1 ≤ k → [exRunning][k]? = none := by
  refine ⟨by rfl, fun k hk => ?_⟩
  rw [List.getElem?_eq_none]
  simpa using hk

/-- C4, amended: when `monitorjob` returns on a table whose slot 0 is occupied
(with one of the three states), slot 0 is free: pgid 0, no processes, no
command.  Either the loop saw the job FINISHED and deleted it, the table
being the one the loop left, of the same size, in which no other slot took
the record.  Or the loop saw it STOPPED: the record `J1` that the reaper left
in slot 0 has the pgid, the command and the pids of the job on entry and the
state STOPPED, and it is moved, with nothing but its terminal modes replaced
by the current ones, to slot `k ≥ 1`, the lowest free background slot or,
when no background slot is free, the one slot by which the table grows; every
other background slot is as the loop left it. -/
theorem monitorjob_frees_slot0 (c : StateCodes) (hc : c.Distinct) (cur : Nat) (t : Table)
    (sigs : List (List (Int × WaitStatus))) (J : Job)
    (hJ : t[0]? = some J) (hocc : J.pgid ≠ 0) (hv : ValidState c J.state)
    (ec : Int) (t1 : Table) (h : monitorjob c cur t sigs = .ok (ec, t1)) :
    (∃ Z, t1[0]? = some Z ∧ Z.pgid = 0 ∧ Z.proc = [] ∧ Z.command = none) ∧
    ((∃ r, monitorLoop c t 0 sigs = .ok r ∧ r.1 = c.FINISHED ∧ t1 = r.2.2 ∧
        t1.length = t.length ∧
        (∀ (k : Nat) (K : Job), 1 ≤ k → t[k]? = some K →
          ∃ K1, t1[k]? = some K1 ∧ SameJob K K1)) ∨
     (∃ r J1, monitorLoop c t 0 sigs = .ok r ∧ r.1 = c.STOPPED ∧ r.2.2[0]? = some J1 ∧
        J1.pgid = J.pgid ∧ J1.command = J.command ∧
        J1.proc.map Proc.pid = J.proc.map Proc.pid ∧ J1.state = c.STOPPED ∧
        ∃ k, 1 ≤ k ∧
          (∀ i, 1 ≤ i → i < k → ∃ K, t[i]? = some K ∧ K.pgid ≠ 0) ∧
          ((k < t.length ∧ (∃ K, t[k]? = some K ∧ K.pgid = 0) ∧ t1.length = t.length) ∨
           (k = t.length ∧ t1.length = t.length + 1)) ∧
          t1[k]? = some { J1 with tmodes := cur } ∧
          (∀ i, 1 ≤ i → i ≠ k → i < t.length → t1[i]? = r.2.2[i]?))) := by
  unfold monitorjob at h
  cases hloop : monitorLoop c t 0 sigs with
  | error e => simp [hloop] at h
  | ok r =>
    simp only [hloop] at h
    obtain ⟨hlen, hframe, hcase⟩ := monitorLoop_spec c hc sigs t 0 J hJ hocc hv r hloop
    rcases hcase with ⟨hfin, Z, hZ, hZfree⟩ | ⟨hst, J1, hJ1, hs1, hst1⟩
    · have hns : r.1 ≠ c.STOPPED := by rw [hfin]; exact Ne.symm hc.2.2.1
      simp only [hns, if_false] at h
      have ht1 : r.2.2 = t1 := (Prod.mk.inj (Except.ok.inj h)).2
      subst ht1
      exact ⟨⟨Z, hZ, hZfree⟩, Or.inl ⟨r, rfl, hfin, rfl, hlen, hframe⟩⟩
    · simp only [hst, if_true] at h
      obtain ⟨t2, k, hev, hk1, hbelow, hslot, hk, h0, hrest⟩ := evacuate_spec cur r.2.2 J1 hJ1
      simp only [hev] at h
      have ht1 : t2 = t1 := (Prod.mk.inj (Except.ok.inj h)).2
      subst ht1
      have hback : ∀ (i : Nat) (K1 : Job), 1 ≤ i → r.2.2[i]? = some K1 →
          ∃ K, t[i]? = some K ∧ SameJob K K1 := by
        intro i K1 hi hK1
        have hlt : i < t.length := by
          rw [← hlen]; exact getElem?_some_lt _ _ _ hK1
        obtain ⟨K2, hK2, hs2⟩ := hframe i t[i] hi (List.getElem?_eq_getElem hlt)
        rw [hK1] at hK2
        cases hK2
        exact ⟨t[i], List.getElem?_eq_getElem hlt, hs2⟩
      refine ⟨⟨Job.zero, h0, rfl, rfl, rfl⟩, Or.inr ⟨r, J1, rfl, hst, hJ1, hs1.1, hs1.2.1,
        hs1.2.2.2, hst1, k, hk1, ?_, ?_, hk, ?_⟩⟩
      · intro i hi hik
        obtain ⟨K1, hK1, hne⟩ := hbelow i hi hik
        obtain ⟨K, hK, hs⟩ := hback i K1 hi hK1
        exact ⟨K, hK, by rw [← hs.1]; exact hne⟩
      · rcases hslot with ⟨hklt, ⟨K1, hK1, hfree⟩, hl⟩ | ⟨hkeq, hl⟩
        · obtain ⟨K, hK, hs⟩ := hback k K1 hk1 hK1
          exact Or.inl ⟨by rw [← hlen]; exact hklt, ⟨K, hK, by rw [← hs.1]; exact hfree⟩,
            by rw [hl, hlen]⟩
        · exact Or.inr ⟨by rw [hkeq, hlen], by rw [hl, hlen]⟩
      · intro i hi hik hit
        exact hrest i hi hik (by rw [hlen]; exact hit)

/-- C4, amended, at a concrete run: the job of slot 0 is reported stopped and
goes to the free slot 1. -/
theorem monitorjob_frees_slot0_witness :
    (∃ Z, [Job.zero, exEvacuated][0]? = some Z ∧ Z.pgid = 0 ∧ Z.proc = [] ∧
        Z.command = none) ∧
    ((∃ r, monitorLoop exCodes [exRunning, Job.zero] 0 [[(5, ⟨4991, .stopped⟩)]] = .ok r ∧
        r.1 = exCodes.FINISHED ∧ [Job.zero, exEvacuated] = r.2.2 ∧
        [Job.zero, exEvacuated].length = [exRunning, Job.zero].length ∧
        (∀ (k : Nat) (K : Job), 1 ≤ k → [exRunning, Job.zero][k]? = some K →
          ∃ K1, [Job.zero, exEvacuated][k]? = some K1 ∧ SameJob K K1)) ∨
     (∃ r J1, monitorLoop exCodes [exRunning, Job.zero] 0 [[(5, ⟨4991, .stopped⟩)]] = .ok r ∧
        r.1 = exCodes.STOPPED ∧ r.2.2[0]? = some J1 ∧
        J1.pgid = exRunning.pgid ∧ J1.command = exRunning.command ∧
        J1.proc.map Proc.pid = exRunning.proc.map Proc.pid ∧ J1.state = exCodes.STOPPED ∧
        ∃ k, 1 ≤ k ∧
          (∀ i, 1 ≤ i → i < k → ∃ K, [exRunning, Job.zero][i]? = some K ∧ K.pgid ≠ 0) ∧
          ((k < [exRunning, Job.zero].length ∧
              (∃ K, [exRunning, Job.zero][k]? = some K ∧ K.pgid = 0) ∧
              [Job.zero, exEvacuated].length = [exRunning, Job.zero].length) ∨
           (k = [exRunning, Job.zero].length ∧
              [Job.zero, exEvacuated].length = [exRunning, Job.zero].length + 1)) ∧
          [Job.zero, exEvacuated][k]? = some { J1 with tmodes := 3 } ∧
          (∀ i, 1 ≤ i → i ≠ k → i < [exRunning, Job.zero].length →
            [Job.zero, exEvacuated][i]? = r.2.2[i]?))) :=
  monitorjob_frees_slot0 exCodes (by decide) 3 [exRunning, Job.zero]
    [[(5, ⟨4991, .stopped⟩)]] exRunning rfl (by decide) (by decide) 0
    [Job.zero, exEvacuated] rfl

/-! ## C2 -/

theorem monitorjob_of_loop (c : StateCodes) (hc : c.Distinct) (cur : Nat) (t : Table)
    (sigs : List (List (Int × WaitStatus))) (J : Job)
    (hJ : t[0]? = some J) (hocc : J.pgid ≠ 0) (hv : ValidState c J.state)
    (r : Int × Int × Table) (hloop : monitorLoop c t 0 sigs = .ok r) :
    ∃ t1, monitorjob c cur t sigs = .ok (r.2.1, t1) := by
  obtain ⟨_, _, hcase⟩ := monitorLoop_spec c hc sigs t 0 J hJ hocc hv r hloop
  unfold monitorjob
  simp only [hloop]
  rcases hcase with ⟨hfin, _⟩ | ⟨hst, J1, hJ1, _, _⟩
  · have hns : r.1 ≠ c.STOPPED := by rw [hfin]; exact Ne.symm hc.2.2.1
    simp only [hns, if_false]
    exact ⟨_, rfl⟩
  · obtain ⟨t2, k, hev, _⟩ := evacuate_spec cur r.2.2 J1 hJ1
    simp only [hst, if_true, hev]
    exact ⟨_, rfl⟩

/-- C2, as stated, fails: job 2 is stopped while slot 1 is free; `fg 2`
followed by a stop leaves the job in slot 1 and slot 2 free. -/
theorem resumejob_fg_stop_renumbers :
    resumejob exCodes 3 [Job.zero, Job.zero, exStopped] 2 0
        [[(7, ⟨65535, .continued⟩)], [(7, ⟨4991, .stopped⟩)]]
      = .ok (true, [Job.zero, { exStopped with tmodes := 3 }, Job.zero]) := by
  rfl

/-- C2, amended: let slot `n ≥ 1` hold an occupied job that is not FINISHED
and let slot 0 be free.  When `resumejob(n, FG)` has moved the job to slot 0
and the monitor then sees it STOPPED, `resumejob` returns true and the job
(same pgid, command and pids) is in slot `m`, the lowest background slot that
is free once slot `n` has been vacated: `1 ≤ m ≤ n`, every slot `1..m-1` is
occupied, and `m = n` exactly when every slot `1..n-1` is occupied. -/
theorem resumejob_fg_stop_slot (c : StateCodes) (hc : c.Distinct) (cur : Nat) (t : Table)
    (n : Nat) (J Z : Job) (sigs : List (List (Int × WaitStatus)))
    (hn : 1 ≤ n) (hJ : t[n]? = some J) (hocc : J.pgid ≠ 0) (hnf : J.state ≠ c.FINISHED)
    (hZ : t[0]? = some Z) (hZfree : Z.pgid = 0)
    (t2 : Table) (hmove : toForeground c t n J = .ok t2)
    (r : Int × Int × Table) (hloop : monitorLoop c t2 0 sigs = .ok r) (hstop : r.1 = c.STOPPED) :
    ∃ t1 m M, resumejob c cur t n 0 sigs = .ok (true, t1) ∧ 1 ≤ m ∧ m ≤ n ∧
      (∀ i, 1 ≤ i → i < m → ∃ K, t[i]? = some K ∧ K.pgid ≠ 0) ∧
      (m < n → ∃ K, t[m]? = some K ∧ K.pgid = 0) ∧
      t1[m]? = some M ∧ M.pgid = J.pgid ∧ M.command = J.command ∧
      M.proc.map Proc.pid = J.proc.map Proc.pid ∧
      (m = n ↔ ∀ i, 1 ≤ i → i < n → ∃ K, t[i]? = some K ∧ K.pgid ≠ 0) := by
  have hnlt : n < t.length := getElem?_some_lt t n J hJ
  have hpos : 0 < t.length := by omega
  -- the table after the move to slot 0
  have ht2 : t2 = ((t.set n { J with state := c.RUNNING }).set 0
      { J with state := c.RUNNING }).set n Job.zero := by
    unfold toForeground movejob at hmove
    have e1 : (t.set n { J with state := c.RUNNING })[n]? = some { J with state := c.RUNNING } := by
      simp [List.getElem?_set, hnlt]
    have e2 : (t.set n { J with state := c.RUNNING })[0]? = some Z := by
      rw [List.getElem?_set_ne (by omega)]; exact hZ
    rw [e1, e2] at hmove
    simp only [hZfree, if_true] at hmove
    exact (Except.ok.inj hmove).symm
  have h20 : t2[0]? = some { J with state := c.RUNNING } := by
    rw [ht2, List.getElem?_set_ne (by omega)]
    simp [List.getElem?_set, hpos]
  have h2n : t2[n]? = some Job.zero := by
    rw [ht2]; simp [List.getElem?_set, hnlt]
  have h2i : ∀ i, 1 ≤ i → i ≠ n → t2[i]? = t[i]? := by
    intro i hi hin
    rw [ht2, List.getElem?_set_ne (Ne.symm hin), List.getElem?_set_ne (by omega),
      List.getElem?_set_ne (Ne.symm hin)]
  have h2len : t2.length = t.length := by rw [ht2]; simp
  obtain ⟨t1, hmon⟩ := monitorjob_of_loop c hc cur t2 sigs _ h20 hocc (Or.inl rfl) r hloop
  obtain ⟨_, hcase⟩ := monitorjob_spec c hc cur t2 sigs _ h20 hocc (Or.inl rfl) _ t1 hmon
  have hres : resumejob c cur t n 0 sigs = .ok (true, t1) := by
    unfold resumejob resolveJob
    have hnn : ¬ ((n : Int) < 0) := by omega
    have hge : ¬ ((n : Int) ≥ (t.length : Int)) := by omega
    simp only [hnn, hge, if_false, Int.toNat_ofNat, hJ, hnf, hmove, hmon, if_true]
  rcases hcase with ⟨⟨r1, hr1, hfin⟩, _⟩ | ⟨_, m, M, hm1, hbelow, hslot, hM, e1, e2, e3, _, _, _⟩
  · rw [hloop] at hr1
    have : r = r1 := Except.ok.inj hr1
    subst this
    exact absurd (hstop.symm.trans hfin) hc.2.2.1
  · have hmn : m ≤ n := by
      by_contra hgt
      obtain ⟨K, hK, hKocc⟩ := hbelow n hn (by omega)
      rw [h2n] at hK
      cases hK
      exact hKocc rfl
    have hocc_t : ∀ i, 1 ≤ i → i < m → ∃ K, t[i]? = some K ∧ K.pgid ≠ 0 := by
      intro i hi him
      rw [← h2i i hi (by omega)]
      exact hbelow i hi him
    have hfree_t : m < n → ∃ K, t[m]? = some K ∧ K.pgid = 0 := by
      intro hlt
      rcases hslot with ⟨_, hK, _⟩ | ⟨hk, _⟩
      · rw [← h2i m hm1 (by omega)]; exact hK
      · omega
    refine ⟨t1, m, M, hres, hm1, hmn, hocc_t, hfree_t, hM, e1, e2, e3, ?_⟩
    constructor
    · intro hmeq; subst hmeq; exact hocc_t
    · intro hall
      by_contra hne
      have hlt : m < n := by omega
      obtain ⟨K, hK, hKfree⟩ := hfree_t hlt
      obtain ⟨K1, hK1, hK1occ⟩ := hall m hm1 hlt
      rw [hK] at hK1
      cases hK1
      exact hK1occ hKfree

/-- C2, amended, at two concrete tables: with slot 1 occupied the stopped job
is back in slot 2. -/
theorem resumejob_fg_stop_slot_witness :
    ∃ t1 m M, resumejob exCodes 3 [Job.zero, exRunning, exStopped] 2 0
        [[(7, ⟨65535, .continued⟩)], [(7, ⟨4991, .stopped⟩)]] = .ok (true, t1) ∧ 1 ≤ m ∧ m ≤ 2 ∧
      (∀ i, 1 ≤ i → i < m →
        ∃ K, [Job.zero, exRunning, exStopped][i]? = some K ∧ K.pgid ≠ 0) ∧
      (m < 2 → ∃ K, [Job.zero, exRunning, exStopped][m]? = some K ∧ K.pgid = 0) ∧
      t1[m]? = some M ∧ M.pgid = exStopped.pgid ∧ M.command = exStopped.command ∧
      M.proc.map Proc.pid = exStopped.proc.map Proc.pid ∧
      (m = 2 ↔ ∀ i, 1 ≤ i → i < 2 →
        ∃ K, [Job.zero, exRunning, exStopped][i]? = some K ∧ K.pgid ≠ 0) :=
  resumejob_fg_stop_slot exCodes (by decide) 3 [Job.zero, exRunning, exStopped] 2 exStopped
    Job.zero [[(7, ⟨65535, .continued⟩)], [(7, ⟨4991, .stopped⟩)]] (by decide) rfl (by decide)
    (by decide) rfl rfl
    [{ exStopped with state := 1 }, exRunning, Job.zero] rfl
    (2, 0, [{ exStopped with state := 2 }, exRunning, Job.zero]) rfl rfl

/-! ## C8 -/

theorem watchSlot_spec (c : StateCodes) (hc : c.Distinct) (which : Int)
    (hw : which = c.ALL ∨ which = c.FINISHED) (j : Nat) (J : Job) (r : Job × List Msg)
    (h : watchSlot c which j J = .ok r) :
    (J.pgid ≠ 0 → J.state = c.FINISHED → r.1.Free) ∧
    (J.pgid = 0 ∨ J.state = c.RUNNING ∨ J.state = c.STOPPED → r.1 = J) := by
  obtain ⟨h1, h2, h3, h4, -⟩ := hc
  unfold watchSlot at h
  by_cases hp : J.pgid = 0
  · simp only [hp, if_true] at h
    have : r = (J, []) := (Except.ok.inj h).symm
    subst this
    exact ⟨fun hne => absurd hp hne, fun _ => rfl⟩
  · simp only [hp, if_false] at h
    by_cases hskip : which ≠ c.ALL ∧ J.state ≠ which
    · rw [if_pos hskip] at h
      have : r = (J, []) := (Except.ok.inj h).symm
      subst this
      refine ⟨fun _ hf => ?_, fun _ => rfl⟩
      rcases hw with hw | hw
      · exact absurd hw hskip.1
      · exact absurd (hf.trans hw.symm) hskip.2
    · rw [if_neg hskip] at h
      by_cases hr : J.state = c.RUNNING
      · simp only [hr, if_true] at h
        have : r = (J, [Msg.running j J.command]) := (Except.ok.inj h).symm
        subst this
        exact ⟨fun _ hf => absurd (hr.symm.trans hf) h2, fun _ => rfl⟩
      · simp only [hr, if_false] at h
        by_cases hs : J.state = c.STOPPED
        · simp only [hs, if_true] at h
          have : r = (J, [Msg.suspended j J.command]) := (Except.ok.inj h).symm
          subst this
          exact ⟨fun _ hf => absurd (hs.symm.trans hf) h3, fun _ => rfl⟩
        · simp only [hs, if_false] at h
          cases hx : exitcode J with
          | error e => simp [hx] at h
          | ok x =>
            simp only [hx] at h
            by_cases hf : J.state = c.FINISHED
            · simp only [deljob, hf, if_true] at h
              have : r = (_, [Msg.finished j J.command x]) := (Except.ok.inj h).symm
              subst this
              refine ⟨fun _ _ => ⟨rfl, rfl, rfl⟩, fun hcase => ?_⟩
              rcases hcase with hcase | hcase | hcase
              · exact absurd hcase hp
              · exact absurd hcase hr
              · exact absurd hcase hs
            · simp [deljob, hf] at h

theorem watchSlot_total (c : StateCodes) (which : Int) (j : Nat) (J : Job)
    (hwf : J.pgid ≠ 0 → ValidState c J.state ∧ J.proc ≠ []) :
    ∃ r, watchSlot c which j J = .ok r := by
  unfold watchSlot
  by_cases hp : J.pgid = 0
  · simp only [hp, if_true]; exact ⟨_, rfl⟩
  · simp only [hp, if_false]
    obtain ⟨hv, hne⟩ := hwf hp
    split
    · exact ⟨_, rfl⟩
    · split
      · exact ⟨_, rfl⟩
      · split
        · exact ⟨_, rfl⟩
        · rename_i _ hr hs
          have hf : J.state = c.FINISHED := by
            rcases hv with hv | hv | hv
            · exact absurd hv hr
            · exact absurd hv hs
            · exact hv
          have hx : ∃ x, exitcode J = .ok x := by
            unfold exitcode
            cases hl : J.proc.getLast? with
            | none => exact absurd (List.getLast?_eq_none_iff.mp hl) hne
            | some p => exact ⟨_, rfl⟩
          obtain ⟨x, hx⟩ := hx
          simp only [hx, deljob, hf, if_true]
          exact ⟨_, rfl⟩

theorem watchFrom_spec (c : StateCodes) (which : Int) (l : List Job) :
    ∀ (j : Nat) (r : List Job × List Msg), watchFrom c which j l = .ok r →
      r.1.length = l.length ∧
      ∀ (i : Nat) (J : Job), l[i]? = some J →
        ∃ r1, watchSlot c which (j + i) J = .ok r1 ∧ r.1[i]? = some r1.1 := by
  induction l with
  | nil =>
    intro j r h
    simp only [watchFrom] at h
    have : r = ([], []) := (Except.ok.inj h).symm
    subst this
    exact ⟨rfl, fun i J hJ => by simp at hJ⟩
  | cons a l ih =>
    intro j r h
    simp only [watchFrom] at h
    cases hs : watchSlot c which j a with
    | error e => simp [hs] at h
    | ok ra =>
      simp only [hs] at h
      cases hrest : watchFrom c which (j + 1) l with
      | error e => simp [hrest] at h
      | ok rs =>
        simp only [hrest] at h
        have : r = (ra.1 :: rs.1, ra.2 ++ rs.2) := (Except.ok.inj h).symm
        subst this
        obtain ⟨hlen, hpt⟩ := ih (j + 1) rs hrest
        refine ⟨by simp [hlen], ?_⟩
        intro i J hJ
        cases i with
        | zero =>
          simp only [List.getElem?_cons_zero, Option.some.injEq] at hJ
          subst hJ
          exact ⟨ra, hs, by simp⟩
        | succ i =>
          simp only [List.getElem?_cons_succ] at hJ
          obtain ⟨r1, hr1, hget⟩ := hpt i J hJ
          exact ⟨r1, by rw [← hr1]; congr 1; omega, by simpa using hget⟩

theorem watchFrom_total (c : StateCodes) (which : Int) (l : List Job)
    (hwf : ∀ J ∈ l, J.pgid ≠ 0 → ValidState c J.state ∧ J.proc ≠ []) :
    ∀ j, ∃ r, watchFrom c which j l = .ok r := by
  induction l with
  | nil => intro j; exact ⟨_, rfl⟩
  | cons a l ih =>
    intro j
    obtain ⟨ra, hra⟩ := watchSlot_total c which j a (hwf a (by simp))
    obtain ⟨rs, hrs⟩ := ih (fun J hJ => hwf J (by simp [hJ])) (j + 1)
    simp only [watchFrom, hra, hrs]
    exact ⟨_, rfl⟩

/-- C8: with `which` being ALL or FINISHED, whenever `watchjobs` returns, the
table has the same size, every background slot that was occupied with state
FINISHED is free (pgid 0, no processes, no command), and slot 0, every free
slot and every RUNNING or STOPPED job is unchanged at its index.  It does
return on every table whose occupied background slots have one of the three
states and at least one process. -/
theorem watchjobs_spec (c : StateCodes) (hc : c.Distinct) (which : Int)
    (hw : which = c.ALL ∨ which = c.FINISHED) (t : Table) :
    (∀ r, watchjobs c which t = .ok r →
      r.1.length = t.length ∧
      ∀ (k : Nat) (J : Job), t[k]? = some J →
        (1 ≤ k → J.pgid ≠ 0 → J.state = c.FINISHED →
          ∃ Z, r.1[k]? = some Z ∧ Z.pgid = 0 ∧ Z.proc = [] ∧ Z.command = none) ∧
        (k = 0 ∨ J.pgid = 0 ∨ J.state = c.RUNNING ∨ J.state = c.STOPPED →
          r.1[k]? = some J)) ∧
    (WellFormed c t → ∃ r, watchjobs c which t = .ok r) := by
  constructor
  · intro r h
    unfold watchjobs at h
    cases hfrom : watchFrom c which BG (List.drop BG t) with
    | error e => simp [hfrom] at h
    | ok rs =>
      simp only [hfrom] at h
      have : r = (List.take BG t ++ rs.1, rs.2) := (Except.ok.inj h).symm
      subst this
      obtain ⟨hlen, hpt⟩ := watchFrom_spec c which _ BG rs hfrom
      simp only [BG] at hlen hpt ⊢
      refine ⟨?_, ?_⟩
      · simp only [List.length_append, List.length_take, hlen, List.length_drop]
        omega
      · intro k J hJ
        have hklt : k < t.length := getElem?_some_lt t k J hJ
        by_cases hk0 : k = 0
        · subst hk0
          have h0 : (List.take 1 t ++ rs.1)[0]? = some J := by
            rw [List.getElem?_append_left (by simp; omega), List.getElem?_take_of_lt (by omega)]
            exact hJ
          exact ⟨fun hk => absurd hk (by omega), fun _ => h0⟩
        · have hdrop : (List.drop 1 t)[k - 1]? = some J := by
            rw [List.getElem?_drop, show 1 + (k - 1) = k by omega]; exact hJ
          obtain ⟨r1, hr1, hget⟩ := hpt (k - 1) J hdrop
          have hk : (List.take 1 t ++ rs.1)[k]? = some r1.1 := by
            rw [List.getElem?_append_right (by simp; omega)]
            simp only [List.length_take]
            rw [show k - min 1 t.length = k - 1 by omega]
            exact hget
          obtain ⟨hfin, hkeep⟩ := watchSlot_spec c hc which hw _ J r1 hr1
          refine ⟨fun _ hocc hf => ⟨r1.1, hk, hfin hocc hf⟩, fun hcase => ?_⟩
          rcases hcase with hcase | hcase
          · exact absurd hcase hk0
          · rw [hk, hkeep hcase]
  · intro hwf
    have : ∀ J ∈ List.drop BG t, J.pgid ≠ 0 → ValidState c J.state ∧ J.proc ≠ [] := by
      intro J hJ
      obtain ⟨i, hi, hget⟩ := List.getElem_of_mem hJ
      have hi2 : (List.drop BG t)[i]? = some J := by
        rw [List.getElem?_eq_getElem hi, hget]
      simp only [BG, List.getElem?_drop] at hi2
      exact hwf (1 + i) J (by omega) hi2
    obtain ⟨rs, hrs⟩ := watchFrom_total c which _ this BG
    unfold watchjobs
    simp only [hrs]
    exact ⟨_, rfl⟩

/-- C8 at a concrete table, for the sweep `watchjobs(FINISHED)`. -/
theorem watchjobs_spec_witness :
    ∃ r, watchjobs exCodes exCodes.FINISHED [Job.zero, exFinished, exRunning] = .ok r ∧
      r.1.length = [Job.zero, exFinished, exRunning].length ∧
      ∀ (k : Nat) (J : Job), [Job.zero, exFinished, exRunning][k]? = some J →
        (1 ≤ k → J.pgid ≠ 0 → J.state = exCodes.FINISHED →
          ∃ Z, r.1[k]? = some Z ∧ Z.pgid = 0 ∧ Z.proc = [] ∧ Z.command = none) ∧
        (k = 0 ∨ J.pgid = 0 ∨ J.state = exCodes.RUNNING ∨ J.state = exCodes.STOPPED →
          r.1[k]? = some J) :=
  ⟨_, rfl, (watchjobs_spec exCodes (by decide) exCodes.FINISHED (Or.inr rfl)
    [Job.zero, exFinished, exRunning]).1 _ rfl⟩

/-! ## C9 -/

/-- C9: for `kill %-1` the index is -1; `killjob` passes the test
`j >= njobmax` and reads the state of `jobs[-1]`, which is outside the table,
where the specification has it report `job not found` without reading outside
the table. -/
theorem killjob_negative_index :
    killjob exCodes 0 100 [Job.zero, exRunning] (-1) = .error .outOfBounds := by
  rfl

/-! ## The redirection resolver -/

theorem take_set_succ {α : Type} (l : List α) (n : Nat) (a : α) (h : n < l.length) :
    (l.set n a).take (n + 1) = l.take n ++ [a] := by
  induction l generalizing n with
  | nil => simp at h
  | cons x l ih =>
    cases n with
    | zero => simp
    | succ n =>
      simp only [List.set_cons_succ, List.take_succ_cons, List.cons_append]
      rw [ih n (by simpa using h)]

theorem take_set_ge {α : Type} (l : List α) (n m : Nat) (a : α) (h : n ≤ m) :
    (l.set m a).take n = l.take n := by
  induction l generalizing n m with
  | nil => simp
  | cons x l ih =>
    cases n with
    | zero => simp
    | succ n =>
      cases m with
      | zero => omega
      | succ m =>
        simp only [List.set_cons_succ, List.take_succ_cons]
        rw [ih n m (by omega)]

/-- One step of the loop of `do_redir` at index `i`, with `n ≤ i`, is the step
of the walk on the token read; it leaves the array beyond `i` untouched. -/
theorem redirStep_toWalk (fs : String → Bool) (s : Redir) (i : Nat) (tok : Token)
    (hn : s.n ≤ i) (htok : s.token[i]? = some tok) :
    (∀ h, redirStep fs s i = .error h → walkStep fs s.toWalk tok = .error h) ∧
    (∀ s1, redirStep fs s i = .ok s1 →
      walkStep fs s.toWalk tok = .ok s1.toWalk ∧ s1.n ≤ i + 1 ∧
      s1.token.length = s.token.length ∧ ∀ p, i < p → s1.token[p]? = s.token[p]?) := by
  have hi : i < s.token.length := getElem?_some_lt _ _ _ htok
  have hnl : s.n < s.token.length := by omega
  unfold redirStep walkStep
  rw [htok]
  simp only [Redir.toWalk]
  by_cases h1 : tok = .T_INPUT
  · simp only [h1, if_true]
    refine ⟨fun h hh => (by cases hh), fun s1 hs1 => ?_⟩
    have := Except.ok.inj hs1
    subst this
    exact ⟨rfl, by simp; omega, rfl, fun _ _ => rfl⟩
  · simp only [h1, if_false]
    by_cases h2 : tok = .T_OUTPUT
    · simp only [h2, if_true]
      refine ⟨fun h hh => (by cases hh), fun s1 hs1 => ?_⟩
      have := Except.ok.inj hs1
      subst this
      exact ⟨rfl, by simp; omega, rfl, fun _ _ => rfl⟩
    · simp only [h2, if_false]
      by_cases hm : s.mode ≠ .T_NULL
      · simp only [hm, if_true, ne_eq, not_false_eq_true]
        by_cases hmi : s.mode = .T_INPUT
        · simp only [hmi, if_true]
          cases hc : MaybeClose s.fds s.closed s.input with
          | error e =>
            simp only
            exact ⟨fun h hh => (by cases hh; rfl), fun s1 hs1 => (by cases hs1)⟩
          | ok m =>
            simp only
            cases ho : Open fs m.2.1 tok false with
            | none =>
              simp only
              exact ⟨fun h hh => (by cases hh; rfl), fun s1 hs1 => (by cases hs1)⟩
            | some o =>
              simp only
              refine ⟨fun h hh => (by cases hh), fun s1 hs1 => ?_⟩
              have := Except.ok.inj hs1
              subst this
              exact ⟨rfl, by simp; omega, rfl, fun _ _ => rfl⟩
        · simp only [hmi, if_false]
          by_cases hmo : s.mode = .T_OUTPUT
          · simp only [hmo, if_true]
            cases hc : MaybeClose s.fds s.closed s.output with
            | error e =>
              simp only
              exact ⟨fun h hh => (by cases hh; rfl), fun s1 hs1 => (by cases hs1)⟩
            | ok m =>
              simp only
              cases ho : Open fs m.2.1 tok true with
              | none =>
                simp only
                exact ⟨fun h hh => (by cases hh; rfl), fun s1 hs1 => (by cases hs1)⟩
              | some o =>
                simp only
                refine ⟨fun h hh => (by cases hh), fun s1 hs1 => ?_⟩
                have := Except.ok.inj hs1
                subst this
                exact ⟨rfl, by simp; omega, rfl, fun _ _ => rfl⟩
          · simp only [hmo, if_false]
            refine ⟨fun h hh => (by cases hh), fun s1 hs1 => ?_⟩
            have := Except.ok.inj hs1
            subst this
            exact ⟨rfl, by simp; omega, rfl, fun _ _ => rfl⟩
      · simp only [hm, if_false, hnl, if_true]
        refine ⟨fun h hh => (by cases hh), fun s1 hs1 => ?_⟩
        have := Except.ok.inj hs1
        subst this
        refine ⟨?_, by simp; omega, by simp, ?_⟩
        · simp only [take_set_succ _ _ _ hnl]
        · intro p hp
          simp only
          rw [List.getElem?_set_ne (by omega)]

theorem drop_eq_of_getElem? {α : Type} (l1 l2 : List α) (i : Nat)
    (h : ∀ p, i ≤ p → l1[p]? = l2[p]?) : l1.drop i = l2.drop i := by
  apply List.ext_getElem?
  intro p
  rw [List.getElem?_drop, List.getElem?_drop]
  exact h (i + p) (by omega)

/-- The loop of `do_redir` over the indices `i, .., i + k - 1` is the walk over
the tokens found there. -/
theorem redirLoop_toWalk (fs : String → Bool) (k : Nat) :
    ∀ (i : Nat) (s : Redir), s.n ≤ i → i + k ≤ s.token.length →
      (∀ h, redirLoop fs (List.range' i k) s = .error h →
        walk fs ((s.token.drop i).take k) s.toWalk = .error h) ∧
      (∀ s1, redirLoop fs (List.range' i k) s = .ok s1 →
        walk fs ((s.token.drop i).take k) s.toWalk = .ok s1.toWalk ∧ s1.n ≤ i + k ∧
        s1.token.length = s.token.length ∧ ∀ p, i + k ≤ p → s1.token[p]? = s.token[p]?) := by
  induction k with
  | zero =>
    intro i s _ _
    simp only [List.range'_zero, redirLoop, List.take_zero, walk]
    refine ⟨fun h hh => (by cases hh), fun s1 hs1 => ?_⟩
    have := Except.ok.inj hs1
    subst this
    exact ⟨rfl, by omega, rfl, fun _ _ => rfl⟩
  | succ k ih =>
    intro i s hn hlen
    have hi : i < s.token.length := by omega
    have htok : s.token[i]? = some s.token[i] := List.getElem?_eq_getElem hi
    have hdrop : (s.token.drop i).take (k + 1) = s.token[i] :: (s.token.drop (i + 1)).take k := by
      rw [List.drop_eq_getElem_cons hi, List.take_succ_cons]
    obtain ⟨hstepE, hstepO⟩ := redirStep_toWalk fs s i s.token[i] hn htok
    rw [hdrop, List.range'_succ]
    simp only [redirLoop, walk]
    cases hstep : redirStep fs s i with
    | error e =>
      rw [hstepE e hstep]
      exact ⟨fun h hh => (by cases hh; rfl), fun s1 hs1 => (by cases hs1)⟩
    | ok s1 =>
      obtain ⟨hw, hn1, hl1, hframe⟩ := hstepO s1 hstep
      rw [hw]
      simp only
      obtain ⟨ihE, ihO⟩ := ih (i + 1) s1 hn1 (by omega)
      have hd : s1.token.drop (i + 1) = s.token.drop (i + 1) :=
        drop_eq_of_getElem? _ _ _ (fun p hp => hframe p (by omega))
      rw [hd] at ihE ihO
      refine ⟨ihE, fun s2 hs2 => ?_⟩
      obtain ⟨hw2, hn2, hl2, hframe2⟩ := ihO s2 hs2
      refine ⟨hw2, by omega, by omega, fun p hp => ?_⟩
      rw [hframe2 p (by omega), hframe p (by omega)]

/-- `do_redir` on a slice of `ntokens` tokens of an array with room for the
terminator is the walk over the slice: it fails as the walk fails, and when it
returns, the first `n` entries of the array are the words the walk kept,
entry `n` is `NULL`, and the array beyond the slice and its terminator is
untouched. -/
theorem do_redir_toWalk (fs : String → Bool) (token : List Token) (ntokens : Nat)
    (input output : Int) (fds : FdTable) (hlen : ntokens < token.length) :
    (∀ h, do_redir fs token ntokens input output fds = .error h →
      walk fs (token.take ntokens) ⟨.T_NULL, [], input, output, fds, []⟩ = .error h) ∧
    (∀ r, do_redir fs token ntokens input output fds = .ok r →
      ∃ w, walk fs (token.take ntokens) ⟨.T_NULL, [], input, output, fds, []⟩ = .ok w ∧
        r.token.take r.n = w.words ∧ r.n = w.words.length ∧ r.n ≤ ntokens ∧
        r.token[r.n]? = some .T_NULL ∧
        r.input = w.input ∧ r.output = w.output ∧ r.fds = w.fds ∧ r.closed = w.closed ∧
        r.token.length = token.length ∧ ∀ p, ntokens < p → r.token[p]? = token[p]?) ∧
    (∀ w, walk fs (token.take ntokens) ⟨.T_NULL, [], input, output, fds, []⟩ = .ok w →
      ∃ r, do_redir fs token ntokens input output fds = .ok r) := by
  obtain ⟨hE, hO⟩ := redirLoop_toWalk fs ntokens 0 ⟨token, .T_NULL, 0, input, output, fds, []⟩
    (Nat.le_refl 0) (by simpa using Nat.le_of_lt hlen)
  simp only [List.drop_zero, Redir.toWalk, List.take_zero, Nat.zero_add] at hE hO
  unfold do_redir
  rw [List.range_eq_range']
  cases hloop : redirLoop fs (List.range' 0 ntokens) ⟨token, .T_NULL, 0, input, output, fds, []⟩ with
  | error e =>
    simp only
    refine ⟨fun h hh => ?_, fun r hr => (by cases hr), fun w hw => ?_⟩
    · cases hh; exact hE e hloop
    · rw [hE e hloop] at hw; cases hw
  | ok s =>
    obtain ⟨hw, hn, hl, hframe⟩ := hO s hloop
    have hnl : s.n < s.token.length := by omega
    simp only [hnl, if_true]
    refine ⟨fun h hh => (by cases hh), fun r hr => ?_, fun w _ => ⟨_, rfl⟩⟩
    have := Except.ok.inj hr
    subst this
    refine ⟨_, hw, ?_, ?_, hn, ?_, rfl, rfl, rfl, rfl, by simpa using hl, ?_⟩
    · simp only [Redir.toWalk]
      exact take_set_ge _ _ _ _ (Nat.le_refl _)
    · simp only [Redir.toWalk, List.length_take]
      omega
    · simp [List.getElem?_set, hnl]
    · intro p hp
      simp only
      rw [List.getElem?_set_ne (by omega)]
      exact hframe p (by omega)

theorem walkStep_words (fs : String → Bool) (w w1 : Walk) (tok : Token)
    (h : walkStep fs w tok = .ok w1) :
    (tok = .T_INPUT ∨ tok = .T_OUTPUT → w1.words = w.words ∧ w1.mode ≠ .T_NULL) ∧
    (¬ (tok = .T_INPUT ∨ tok = .T_OUTPUT) → w.mode ≠ .T_NULL →
      w1.words = w.words ∧ w1.mode = .T_NULL) ∧
    (¬ (tok = .T_INPUT ∨ tok = .T_OUTPUT) → w.mode = .T_NULL →
      w1.words = w.words ++ [tok] ∧ w1.mode = .T_NULL) := by
  unfold walkStep at h
  by_cases h1 : tok = .T_INPUT
  · simp only [h1, if_true] at h
    have := Except.ok.inj h
    subst this
    simp [h1]
  · simp only [h1, if_false] at h
    by_cases h2 : tok = .T_OUTPUT
    · simp only [h2, if_true] at h
      have := Except.ok.inj h
      subst this
      simp [h2]
    · simp only [h2, if_false] at h
      by_cases hm : w.mode ≠ .T_NULL
      · simp only [hm, if_true, ne_eq, not_false_eq_true] at h
        have hgoal : w1.words = w.words ∧ w1.mode = .T_NULL := by
          by_cases hmi : w.mode = .T_INPUT
          · simp only [hmi, if_true] at h
            cases hc : MaybeClose w.fds w.closed w.input with
            | error e => simp [hc] at h
            | ok m =>
              simp only [hc] at h
              cases ho : Open fs m.2.1 tok false with
              | none => simp [ho] at h
              | some o =>
                simp only [ho] at h
                have := Except.ok.inj h
                subst this
                exact ⟨rfl, rfl⟩
          · simp only [hmi, if_false] at h
            by_cases hmo : w.mode = .T_OUTPUT
            · simp only [hmo, if_true] at h
              cases hc : MaybeClose w.fds w.closed w.output with
              | error e => simp [hc] at h
              | ok m =>
                simp only [hc] at h
                cases ho : Open fs m.2.1 tok true with
                | none => simp [ho] at h
                | some o =>
                  simp only [ho] at h
                  have := Except.ok.inj h
                  subst this
                  exact ⟨rfl, rfl⟩
            · simp only [hmo, if_false] at h
              have := Except.ok.inj h
              subst this
              exact ⟨rfl, rfl⟩
        simp [h1, h2, hm, hgoal]
      · simp only [hm, if_false] at h
        have := Except.ok.inj h
        subst this
        have hm1 : w.mode = .T_NULL := by simpa using hm
        simp [h1, h2, hm1]

/-- The words the walk keeps are the word tokens of the specification. -/
theorem walk_words (fs : String → Bool) (toks : List Token) :
    ∀ (w w1 : Walk), walk fs toks w = .ok w1 →
      w1.words = w.words ++ wordTokens (decide (w.mode ≠ .T_NULL)) toks := by
  induction toks with
  | nil =>
    intro w w1 h
    simp only [walk] at h
    have := Except.ok.inj h
    subst this
    simp [wordTokens]
  | cons tok ts ih =>
    intro w w1 h
    simp only [walk] at h
    cases hs : walkStep fs w tok with
    | error e => simp [hs] at h
    | ok w2 =>
      simp only [hs] at h
      have hrec := ih w2 w1 h
      obtain ⟨hop, hfile, hword⟩ := walkStep_words fs w w2 tok hs
      by_cases hopc : tok = .T_INPUT ∨ tok = .T_OUTPUT
      · obtain ⟨hw, hm⟩ := hop hopc
        rw [hrec, hw]
        simp [wordTokens, hopc, hm]
      · by_cases hm : w.mode = .T_NULL
        · obtain ⟨hw, hm2⟩ := hword hopc hm
          rw [hrec, hw]
          simp [wordTokens, hopc, hm, hm2]
        · obtain ⟨hw, hm2⟩ := hfile hopc hm
          rw [hrec, hw]
          simp [wordTokens, hopc, hm, hm2]

theorem wordTokens_no_operator (toks : List Token) :
    ∀ (b : Bool) (t : Token), t ∈ wordTokens b toks → t ≠ .T_INPUT ∧ t ≠ .T_OUTPUT := by
  induction toks with
  | nil => intro b t h; simp [wordTokens] at h
  | cons tok ts ih =>
    intro b t h
    unfold wordTokens at h
    by_cases hop : tok = .T_INPUT ∨ tok = .T_OUTPUT
    · simp only [hop, if_true] at h
      exact ih _ t h
    · simp only [hop, if_false] at h
      cases b with
      | true => exact ih _ t (by simpa using h)
      | false =>
        simp only [Bool.false_eq_true, if_false, List.mem_cons] at h
        rcases h with h | h
        · subst h
          exact ⟨fun h1 => hop (Or.inl h1), fun h2 => hop (Or.inr h2)⟩
        · exact ih _ t h

/-! ## Descriptors -/

theorem isOpen_nat (fds : FdTable) (n : Nat) :
    isOpen fds n = true ↔ n ∈ fds.map Prod.fst := by
  simp [isOpen]

theorem isOpen_iff (fds : FdTable) (fd : Int) :
    isOpen fds fd = true ↔ ∃ e ∈ fds, (e.1 : Int) = fd := by
  simp [isOpen]

theorem lowestFreeFrom_spec (fds : FdTable) :
    ∀ (fuel n : Nat), isOpen fds (lowestFreeFrom fds fuel n : Nat) = false ∨
      (lowestFreeFrom fds fuel n = n + fuel ∧
        ∀ m, n ≤ m → m < n + fuel → isOpen fds (m : Nat) = true) := by
  intro fuel
  induction fuel with
  | zero => intro n; right; exact ⟨rfl, fun m h1 h2 => by omega⟩
  | succ fuel ih =>
    intro n
    unfold lowestFreeFrom
    by_cases hn : isOpen fds (n : Nat) = true
    · simp only [hn, if_true]
      rcases ih (n + 1) with h | ⟨h1, h2⟩
      · exact Or.inl h
      · right
        refine ⟨by omega, fun m hm1 hm2 => ?_⟩
        by_cases hmn : m = n
        · subst hmn; exact hn
        · exact h2 m (by omega) (by omega)
    · simp only [hn]
      left
      simpa using hn

/-- The descriptor chosen for a new file is not open. -/
theorem lowestFree_not_open (fds : FdTable) : isOpen fds (lowestFree fds : Nat) = false := by
  rcases lowestFreeFrom_spec fds fds.length 0 with h | ⟨h1, h2⟩
  · exact h
  · by_contra hopen
    have hopen1 : isOpen fds (lowestFree fds : Nat) = true := by simpa using hopen
    have hsub : List.range (fds.length + 1) ⊆ fds.map Prod.fst := by
      intro m hm
      rw [List.mem_range] at hm
      rw [← isOpen_nat]
      by_cases hml : m < fds.length
      · exact h2 m (Nat.zero_le m) (by omega)
      · have : m = lowestFree fds := by
          unfold lowestFree; omega
        rw [this]; exact hopen1
    have hle := (List.subperm_of_subset (List.nodup_range _) hsub).length_le
    simp at hle

/-- Replacing the descriptor of a slot (lines 44-46 and 52-53): the old
descriptor, if any, is closed, the file is opened on a descriptor that is not
open, and the other slot is not touched. -/
theorem redirect_slot (fs : String → Bool) (fds : FdTable) (closed : List Int)
    (slot other : Int) (path : String) (write : Bool) (hfs : fs path = true)
    (hnd : (fds.map Prod.fst).Nodup) (hslot : slot < 0 ∨ isOpen fds slot = true)
    (hother : other < 0 ∨ isOpen fds other = true) (hne : 0 ≤ slot → slot ≠ other) :
    ∃ m o, MaybeClose fds closed slot = .ok m ∧ Open fs m.2.1 (.word path) write = some o ∧
      m.2.2.length = closed.length + (if 0 ≤ slot then 1 else 0) ∧
      (o.2.map Prod.fst).Nodup ∧ isOpen o.2 (o.1 : Nat) = true ∧
      (other < 0 ∨ isOpen o.2 other = true) ∧ (o.1 : Int) ≠ other ∧
      (∀ e : Nat × OpenFile, e ∈ o.2 ↔ e = (o.1, .file path write) ∨ (e ∈ fds ∧ (e.1 : Int) ≠ slot)) ∧
      (∀ e ∈ fds, (e.1 : Int) ≠ slot → e.1 ≠ o.1) := by
  -- the table after `MaybeClose`
  have hclose : ∃ m, MaybeClose fds closed slot = .ok m ∧
      m.2.1 = fds.filter (fun e => decide ((e.1 : Int) ≠ slot)) ∧
      m.2.2.length = closed.length + (if 0 ≤ slot then 1 else 0) := by
    unfold MaybeClose
    by_cases hneg : slot < 0
    · refine ⟨_, by simp only [hneg, if_true]; rfl, ?_, ?_⟩
      · simp only
        symm
        rw [List.filter_eq_self]
        intro e _
        have : (0 : Int) ≤ (e.1 : Int) := Int.ofNat_nonneg _
        simp only [ne_eq, decide_eq_true_eq]
        omega
      · have : ¬ (0 ≤ slot) := by omega
        simp [this]
    · have hop : isOpen fds slot = true := by
        rcases hslot with h | h
        · exact absurd h hneg
        · exact h
      have hpos : 0 ≤ slot := by omega
      refine ⟨(-1, fds.filter (fun e => decide ((e.1 : Int) ≠ slot)), closed ++ [slot]), ?_, rfl, ?_⟩
      · simp only [hneg, if_false, Close, hop, if_true]
      · simp [hpos]
  obtain ⟨m, hm, hm1, hm2⟩ := hclose
  have hfresh : isOpen m.2.1 (lowestFree m.2.1 : Nat) = false := lowestFree_not_open m.2.1
  have hfresh2 : ∀ e ∈ m.2.1, e.1 ≠ lowestFree m.2.1 := by
    intro e he heq
    have : isOpen m.2.1 (lowestFree m.2.1 : Nat) = true := by
      rw [isOpen_nat]
      exact List.mem_map.mpr ⟨e, he, heq⟩
    rw [hfresh] at this
    exact absurd this (by simp)
  have hmem1 : ∀ e : Nat × OpenFile, e ∈ m.2.1 ↔ (e ∈ fds ∧ (e.1 : Int) ≠ slot) := by
    intro e
    rw [hm1]
    simp [List.mem_filter]
  refine ⟨m, (lowestFree m.2.1, (lowestFree m.2.1, .file path write) :: m.2.1), hm, ?_, hm2,
    ?_, ?_, ?_, ?_, ?_, ?_⟩
  · simp [Open, hfs]
  · simp only [List.map_cons, List.nodup_cons]
    refine ⟨?_, ?_⟩
    · intro hmem
      obtain ⟨e, he, heq⟩ := List.mem_map.mp hmem
      exact hfresh2 e he heq
    · rw [hm1]
      exact (hnd.sublist (List.Sublist.map _ (List.filter_sublist _)))
  · simp [isOpen]
  · rcases hother with h | h
    · exact Or.inl h
    · right
      obtain ⟨e, he, heq⟩ := (isOpen_iff fds other).mp h
      rw [isOpen_iff]
      refine ⟨e, List.mem_cons_of_mem _ ((hmem1 e).mpr ⟨he, ?_⟩), heq⟩
      intro hes
      have hs0 : 0 ≤ slot := by rw [← hes]; exact Int.ofNat_nonneg _
      exact hne hs0 (hes.symm.trans heq)
  · intro heq
    rcases hother with h | h
    · have : (0 : Int) ≤ (lowestFree m.2.1 : Int) := Int.ofNat_nonneg _
      simp only at heq
      omega
    · obtain ⟨e, he, heo⟩ := (isOpen_iff fds other).mp h
      have hes : (e.1 : Int) ≠ slot := by
        intro hes
        have hs0 : 0 ≤ slot := by rw [← hes]; exact Int.ofNat_nonneg _
        exact hne hs0 (hes.symm.trans heo)
      have := hfresh2 e ((hmem1 e).mpr ⟨he, hes⟩)
      simp only at heq
      apply this
      have : (e.1 : Int) = (lowestFree m.2.1 : Int) := heo.trans heq.symm
      exact_mod_cast this
  · intro e
    simp only [List.mem_cons]
    rw [hmem1]
  · intro e he hes
    exact hfresh2 e ((hmem1 e).mpr ⟨he, hes⟩)

theorem getLast?_cons_of_ne_nil {α : Type} (a : α) (l : List α) (h : l ≠ []) :
    (a :: l).getLast? = l.getLast? := by
  cases l with
  | nil => exact absurd rfl h
  | cons b l => simp [List.getLast?_cons_cons]

theorem superseded_cons (tok : Token) (ops : List Token) (slot : Int) (fd : Nat) :
    (if 0 ≤ slot then 1 else 0) + superseded ops fd = superseded (tok :: ops) slot := by
  unfold superseded
  have hfd : (0 : Int) ≤ (fd : Int) := Int.ofNat_nonneg _
  cases ops with
  | nil => simp
  | cons a l => simp [hfd]; omega

/-- The effect of a walk that starts by opening `path` for input. -/
theorem fdsAfter_input (fds fds2 : FdTable) (in0 out0 : Int) (fd : Nat) (path : String)
    (n0 n2 : Nat) (I O : List Token) (w1 : Walk)
    (hmem : ∀ e : Nat × OpenFile,
      e ∈ fds2 ↔ e = (fd, .file path false) ∨ (e ∈ fds ∧ (e.1 : Int) ≠ in0))
    (hfresh : ∀ e ∈ fds, (e.1 : Int) ≠ in0 → e.1 ≠ fd)
    (hfdout : (fd : Int) ≠ out0)
    (hn : n2 = n0 + (if 0 ≤ in0 then 1 else 0))
    (hpost : FdsAfter fds2 fd out0 n2 I O w1) :
    FdsAfter fds in0 out0 n0 (.word path :: I) O w1 := by
  obtain ⟨hok, hI, hO, hIpos, hOpos, hm, hc⟩ := hpost
  refine ⟨hok, fun h => absurd h (by simp), hO, fun _ => ?_, hOpos, fun e => ?_, ?_⟩
  · by_cases hIe : I = []
    · rw [hI hIe]; exact Int.ofNat_nonneg _
    · exact hIpos hIe
  · rw [hm e]
    constructor
    · rintro (⟨he2, hnI, hnO⟩ | ⟨p, hp, he1, he2⟩ | h3)
      · rcases (hmem e).mp he2 with heq | ⟨he, hne⟩
        · have hIe : I = [] := by
            by_contra hIne
            exact hnI ⟨hIne, by rw [heq]⟩
          right; left
          exact ⟨path, by rw [hIe]; rfl, by rw [hI hIe, heq], by rw [heq]⟩
        · left
          exact ⟨he, fun h => hne h.2, hnO⟩
      · have hIne : I ≠ [] := by
          intro hIe; rw [hIe] at hp; simp at hp
        right; left
        exact ⟨p, by rw [getLast?_cons_of_ne_nil _ _ hIne]; exact hp, he1, he2⟩
      · exact Or.inr (Or.inr h3)
    · rintro (⟨he, hnI, hnO⟩ | ⟨p, hp, he1, he2⟩ | h3)
      · have hne : (e.1 : Int) ≠ in0 := fun h => hnI ⟨by simp, h⟩
        left
        refine ⟨(hmem e).mpr (Or.inr ⟨he, hne⟩), fun h => ?_, hnO⟩
        have := hfresh e he hne
        exact this (by exact_mod_cast h.2)
      · by_cases hIe : I = []
        · rw [hIe] at hp
          have hpp : p = path := by
            simp only [List.getLast?_singleton, Option.some.injEq, Token.word.injEq] at hp
            exact hp.symm
          subst hpp
          rw [hI hIe] at he1
          have he1n : e.1 = fd := by exact_mod_cast he1
          have heq : e = (fd, OpenFile.file p false) := Prod.ext he1n he2
          left
          refine ⟨(hmem e).mpr (Or.inl heq), fun h => h.1 hIe, fun h => ?_⟩
          exact hfdout (by rw [← h.2, he1n])
        · right; left
          exact ⟨p, by rw [← getLast?_cons_of_ne_nil _ _ hIe]; exact hp, he1, he2⟩
      · exact Or.inr (Or.inr h3)
  · rw [hc, hn, ← superseded_cons (.word path) I in0 fd]
    omega

/-- The effect of a walk that starts by opening `path` for output. -/
theorem fdsAfter_output (fds fds2 : FdTable) (in0 out0 : Int) (fd : Nat) (path : String)
    (n0 n2 : Nat) (I O : List Token) (w1 : Walk)
    (hmem : ∀ e : Nat × OpenFile,
      e ∈ fds2 ↔ e = (fd, .file path true) ∨ (e ∈ fds ∧ (e.1 : Int) ≠ out0))
    (hfresh : ∀ e ∈ fds, (e.1 : Int) ≠ out0 → e.1 ≠ fd)
    (hfdin : (fd : Int) ≠ in0)
    (hn : n2 = n0 + (if 0 ≤ out0 then 1 else 0))
    (hpost : FdsAfter fds2 in0 fd n2 I O w1) :
    FdsAfter fds in0 out0 n0 I (.word path :: O) w1 := by
  obtain ⟨hok, hI, hO, hIpos, hOpos, hm, hc⟩ := hpost
  refine ⟨hok, hI, fun h => absurd h (by simp), hIpos, fun _ => ?_, fun e => ?_, ?_⟩
  · by_cases hOe : O = []
    · rw [hO hOe]; exact Int.ofNat_nonneg _
    · exact hOpos hOe
  · rw [hm e]
    constructor
    · rintro (⟨he2, hnI, hnO⟩ | h2 | ⟨p, hp, he1, he2⟩)
      · rcases (hmem e).mp he2 with heq | ⟨he, hne⟩
        · have hOe : O = [] := by
            by_contra hOne
            exact hnO ⟨hOne, by rw [heq]⟩
          right; right
          exact ⟨path, by rw [hOe]; rfl, by rw [hO hOe, heq], by rw [heq]⟩
        · left
          exact ⟨he, hnI, fun h => hne h.2⟩
      · exact Or.inr (Or.inl h2)
      · have hOne : O ≠ [] := by
          intro hOe; rw [hOe] at hp; simp at hp
        right; right
        exact ⟨p, by rw [getLast?_cons_of_ne_nil _ _ hOne]; exact hp, he1, he2⟩
    · rintro (⟨he, hnI, hnO⟩ | h2 | ⟨p, hp, he1, he2⟩)
      · have hne : (e.1 : Int) ≠ out0 := fun h => hnO ⟨by simp, h⟩
        left
        refine ⟨(hmem e).mpr (Or.inr ⟨he, hne⟩), hnI, fun h => ?_⟩
        have := hfresh e he hne
        exact this (by exact_mod_cast h.2)
      · exact Or.inr (Or.inl h2)
      · by_cases hOe : O = []
        · rw [hOe] at hp
          have hpp : p = path := by
            simp only [List.getLast?_singleton, Option.some.injEq, Token.word.injEq] at hp
            exact hp.symm
          subst hpp
          rw [hO hOe] at he1
          have he1n : e.1 = fd := by exact_mod_cast he1
          have heq : e = (fd, OpenFile.file p true) := Prod.ext he1n he2
          left
          refine ⟨(hmem e).mpr (Or.inl heq), fun h => ?_, fun h => h.1 hOe⟩
          exact hfdin (by rw [← h.2, he1n])
        · right; right
          exact ⟨p, by rw [← getLast?_cons_of_ne_nil _ _ hOe]; exact hp, he1, he2⟩
  · rw [hc, hn, ← superseded_cons (.word path) O out0 fd]
    omega

/-- The walk returns when every operand can be opened and the slots are well
formed on entry, and its effect on the descriptors is `FdsAfter`. -/
theorem walk_fds (fs : String → Bool) (toks : List Token) :
    ∀ (w : Walk), SlotsOk w.fds w.input w.output →
      (∀ t, t ∈ operands .T_INPUT w.mode toks ∨ t ∈ operands .T_OUTPUT w.mode toks →
        ∃ path, t = .word path ∧ fs path = true) →
      ∃ w1, walk fs toks w = .ok w1 ∧
        FdsAfter w.fds w.input w.output w.closed.length
          (operands .T_INPUT w.mode toks) (operands .T_OUTPUT w.mode toks) w1 := by
  induction toks with
  | nil =>
    intro w hok _
    refine ⟨w, rfl, hok, fun _ => rfl, fun _ => rfl, fun h => absurd rfl h,
      fun h => absurd rfl h, fun e => ?_, ?_⟩
    · simp [operands]
    · simp [operands, superseded]
  | cons tok ts ih =>
    intro w hok hopen
    by_cases hop : tok = .T_INPUT ∨ tok = .T_OUTPUT
    · have hI : operands .T_INPUT w.mode (tok :: ts) = operands .T_INPUT tok ts := by
        simp [operands, hop]
      have hO : operands .T_OUTPUT w.mode (tok :: ts) = operands .T_OUTPUT tok ts := by
        simp [operands, hop]
      have hstep : walkStep fs w tok = .ok { w with mode := tok } := by
        unfold walkStep
        rcases hop with h | h
        · simp [h]
        · simp [h]
      rw [hI, hO] at hopen ⊢
      obtain ⟨w1, hw1, hpost⟩ := ih { w with mode := tok } hok hopen
      exact ⟨w1, by simp only [walk, hstep]; exact hw1, hpost⟩
    · have hnI : tok ≠ .T_INPUT := fun h => hop (Or.inl h)
      have hnO : tok ≠ .T_OUTPUT := fun h => hop (Or.inr h)
      by_cases hmi : w.mode = .T_INPUT
      · have hI : operands .T_INPUT w.mode (tok :: ts) = tok :: operands .T_INPUT .T_NULL ts := by
          simp [operands, hop, hmi]
        have hO : operands .T_OUTPUT w.mode (tok :: ts) = operands .T_OUTPUT .T_NULL ts := by
          simp [operands, hop, hmi]
        rw [hI, hO] at hopen ⊢
        obtain ⟨path, htok, hfs⟩ := hopen tok (Or.inl (by simp))
        subst htok
        obtain ⟨hnd, hin, hout, hne⟩ := hok
        obtain ⟨m, o, hm, ho, hcl, hnd2, hopen2, hother2, hneq2, hmem2, hfresh2⟩ :=
          redirect_slot fs w.fds w.closed w.input w.output path false hfs hnd hin hout hne
        have hstep : walkStep fs w (.word path) =
            .ok { w with input := o.1, fds := o.2, closed := m.2.2, mode := .T_NULL } := by
          unfold walkStep
          simp [hmi, hm, ho]
        have hok2 : SlotsOk o.2 (o.1 : Nat) w.output :=
          ⟨hnd2, Or.inr hopen2, hother2, fun _ => hneq2⟩
        obtain ⟨w1, hw1, hpost⟩ :=
          ih { w with input := o.1, fds := o.2, closed := m.2.2, mode := .T_NULL } hok2
            (fun t ht => hopen t (by
              rcases ht with h | h
              · exact Or.inl (List.mem_cons_of_mem _ h)
              · exact Or.inr h))
        refine ⟨w1, by simp only [walk, hstep]; exact hw1, ?_⟩
        exact fdsAfter_input w.fds o.2 w.input w.output o.1 path _ _ _ _ w1 hmem2 hfresh2 hneq2
          hcl hpost
      · by_cases hmo : w.mode = .T_OUTPUT
        · have hI : operands .T_INPUT w.mode (tok :: ts) = operands .T_INPUT .T_NULL ts := by
            simp [operands, hop, hmo]
          have hO : operands .T_OUTPUT w.mode (tok :: ts)
              = tok :: operands .T_OUTPUT .T_NULL ts := by
            simp [operands, hop, hmo]
          rw [hI, hO] at hopen ⊢
          obtain ⟨path, htok, hfs⟩ := hopen tok (Or.inr (by simp))
          subst htok
          obtain ⟨hnd, hin, hout, hne⟩ := hok
          have hne2 : 0 ≤ w.output → w.output ≠ w.input := by
            intro h0 heq
            exact hne (by rw [← heq]; exact h0) heq.symm
          obtain ⟨m, o, hm, ho, hcl, hnd2, hopen2, hother2, hneq2, hmem2, hfresh2⟩ :=
            redirect_slot fs w.fds w.closed w.output w.input path true hfs hnd hout hin hne2
          have hstep : walkStep fs w (.word path) =
              .ok { w with output := o.1, fds := o.2, closed := m.2.2, mode := .T_NULL } := by
            unfold walkStep
            simp [hmo, hm, ho]
          have hok2 : SlotsOk o.2 w.input (o.1 : Nat) :=
            ⟨hnd2, hother2, Or.inr hopen2, fun _ h => hneq2 h.symm⟩
          obtain ⟨w1, hw1, hpost⟩ :=
            ih { w with output := o.1, fds := o.2, closed := m.2.2, mode := .T_NULL } hok2
              (fun t ht => hopen t (by
                rcases ht with h | h
                · exact Or.inl h
                · exact Or.inr (List.mem_cons_of_mem _ h)))
          refine ⟨w1, by simp only [walk, hstep]; exact hw1, ?_⟩
          exact fdsAfter_output w.fds o.2 w.input w.output o.1 path _ _ _ _ w1 hmem2 hfresh2
            hneq2 hcl hpost
        · have hI : operands .T_INPUT w.mode (tok :: ts) = operands .T_INPUT .T_NULL ts := by
            simp [operands, hop, hmi]
          have hO : operands .T_OUTPUT w.mode (tok :: ts) = operands .T_OUTPUT .T_NULL ts := by
            simp [operands, hop, hmo]
          rw [hI, hO] at hopen ⊢
          by_cases hmn : w.mode = .T_NULL
          · have hstep : walkStep fs w tok = .ok { w with words := w.words ++ [tok] } := by
              unfold walkStep
              simp [hnI, hnO, hmn]
            have hopen2 : ∀ t, t ∈ operands .T_INPUT .T_NULL ts ∨ t ∈ operands .T_OUTPUT .T_NULL ts →
                ∃ path, t = .word path ∧ fs path = true := hopen
            rw [← hmn] at hopen2
            obtain ⟨w1, hw1, hpost⟩ := ih { w with words := w.words ++ [tok] } hok hopen2
            simp only [hmn] at hpost
            exact ⟨w1, by simp only [walk, hstep]; exact hw1, hpost⟩
          · have hstep : walkStep fs w tok = .ok { w with mode := .T_NULL } := by
              unfold walkStep
              simp [hnI, hnO, hmn, hmi, hmo]
            obtain ⟨w1, hw1, hpost⟩ := ih { w with mode := .T_NULL } hok hopen
            exact ⟨w1, by simp only [walk, hstep]; exact hw1, hpost⟩

theorem wordTokens_sublist (toks : List Token) :
    ∀ (b : Bool), (wordTokens b toks).Sublist toks := by
  induction toks with
  | nil => intro b; simp [wordTokens]
  | cons tok ts ih =>
    intro b
    unfold wordTokens
    by_cases hop : tok = .T_INPUT ∨ tok = .T_OUTPUT
    · simp only [hop, if_true]
      exact (ih true).cons tok
    · simp only [hop, if_false]
      cases b with
      | true => simpa using (ih false).cons tok
      | false => simpa using (ih false).cons₂ tok

/-! ## C6 -/

/-- C6: on a slice of `ntokens` tokens of an array that has room for the
terminator, whenever `do_redir` returns, the returned length `n` is at most
`ntokens`; the first `n` entries of the array are, in their original order,
the tokens of the slice that are neither a `<` or `>` operator nor the
filename operand of one; entry `n` is `NULL`; and no `<` or `>` is among the
first `n` entries.  It does return when every operand can be opened and the
descriptor slots are well formed. -/
theorem do_redir_compacts (fs : String → Bool) (token : List Token) (ntokens : Nat)
    (input output : Int) (fds : FdTable) (hlen : ntokens < token.length) :
    (∀ r, do_redir fs token ntokens input output fds = .ok r →
      r.n ≤ ntokens ∧ r.token.take r.n = wordTokens false (token.take ntokens) ∧
      (r.token.take r.n).Sublist (token.take ntokens) ∧
      r.token[r.n]? = some .T_NULL ∧
      ∀ t ∈ r.token.take r.n, t ≠ .T_INPUT ∧ t ≠ .T_OUTPUT) ∧
    (OpensSucceed fs (token.take ntokens) → SlotsOk fds input output →
      ∃ r, do_redir fs token ntokens input output fds = .ok r) := by
  obtain ⟨_, hO, hT⟩ := do_redir_toWalk fs token ntokens input output fds hlen
  constructor
  · intro r hr
    obtain ⟨w, hw, htake, _, hn, hnull, _⟩ := hO r hr
    have hwords := walk_words fs _ _ w hw
    simp only [List.nil_append, ne_eq, not_true_eq_false, decide_False] at hwords
    rw [htake, hwords]
    exact ⟨hn, rfl, wordTokens_sublist _ _, hnull, wordTokens_no_operator _ _⟩
  · intro hopen hok
    obtain ⟨w1, hw1, _⟩ := walk_fds fs (token.take ntokens)
      ⟨.T_NULL, [], input, output, fds, []⟩ hok hopen
    exact hT w1 hw1

/-- C6 on the array of `a < f b > g > h`: two words are left. -/
theorem do_redir_compacts_witness :
    ∃ r, do_redir (fun _ => true) exTokens 8 (-1) (-1) exFds = .ok r ∧
      r.n ≤ 8 ∧ r.token.take r.n = wordTokens false (exTokens.take 8) ∧
      (r.token.take r.n).Sublist (exTokens.take 8) ∧
      r.token[r.n]? = some .T_NULL ∧
      ∀ t ∈ r.token.take r.n, t ≠ .T_INPUT ∧ t ≠ .T_OUTPUT :=
  ⟨exRedir, by rfl,
    (do_redir_compacts (fun _ => true) exTokens 8 (-1) (-1) exFds (by decide)).1 exRedir
      (by rfl)⟩

/-! ## C7 -/

/-- C7: let every filename operand of the slice be a path that can be opened
and let each slot on entry be unset or hold an open descriptor, the two being
different.  Then `do_redir` returns and, `I` and `O` being the operands of `<`
and of `>`: a direction without operand keeps its slot; the input slot holds a
descriptor open on the last operand of `<` for reading and the output slot one
open on the last operand of `>` for writing; no descriptor is listed twice;
the open descriptors afterwards are exactly those of before, less the slot of
each direction that has an operand, plus the final slot of each such
direction; and `Close` was called once for each superseded descriptor, never
on a descriptor that was not open. -/
theorem do_redir_descriptors (fs : String → Bool) (token : List Token) (ntokens : Nat)
    (input output : Int) (fds : FdTable) (hlen : ntokens < token.length)
    (hopen : OpensSucceed fs (token.take ntokens)) (hok : SlotsOk fds input output) :
    ∃ r, do_redir fs token ntokens input output fds = .ok r ∧
      (operands .T_INPUT .T_NULL (token.take ntokens) = [] → r.input = input) ∧
      (operands .T_OUTPUT .T_NULL (token.take ntokens) = [] → r.output = output) ∧
      (∀ path, (operands .T_INPUT .T_NULL (token.take ntokens)).getLast? = some (.word path) →
        ∃ fd : Nat, r.input = fd ∧ (fd, OpenFile.file path false) ∈ r.fds) ∧
      (∀ path, (operands .T_OUTPUT .T_NULL (token.take ntokens)).getLast? = some (.word path) →
        ∃ fd : Nat, r.output = fd ∧ (fd, OpenFile.file path true) ∈ r.fds) ∧
      (r.fds.map Prod.fst).Nodup ∧
      (∀ e : Nat × OpenFile, e ∈ r.fds ↔
        (e ∈ fds ∧
          ¬ (operands .T_INPUT .T_NULL (token.take ntokens) ≠ [] ∧ (e.1 : Int) = input) ∧
          ¬ (operands .T_OUTPUT .T_NULL (token.take ntokens) ≠ [] ∧ (e.1 : Int) = output)) ∨
        (∃ path, (operands .T_INPUT .T_NULL (token.take ntokens)).getLast? = some (.word path) ∧
          (e.1 : Int) = r.input ∧ e.2 = .file path false) ∨
        (∃ path, (operands .T_OUTPUT .T_NULL (token.take ntokens)).getLast? = some (.word path) ∧
          (e.1 : Int) = r.output ∧ e.2 = .file path true)) ∧
      r.closed.length = superseded (operands .T_INPUT .T_NULL (token.take ntokens)) input +
        superseded (operands .T_OUTPUT .T_NULL (token.take ntokens)) output := by
  obtain ⟨_, hO, hT⟩ := do_redir_toWalk fs token ntokens input output fds hlen
  obtain ⟨w1, hw1, hpost⟩ := walk_fds fs (token.take ntokens)
    ⟨.T_NULL, [], input, output, fds, []⟩ hok hopen
  obtain ⟨r, hr⟩ := hT w1 hw1
  obtain ⟨w, hw, _, _, _, _, hin, hout, hfds, hcl, _⟩ := hO r hr
  rw [hw1] at hw
  have hww : w1 = w := Except.ok.inj hw
  subst hww
  obtain ⟨hok1, hI, hOo, hIpos, hOpos, hm, hc⟩ := hpost
  simp only [List.length_nil, Nat.zero_add] at hc
  rw [← hin] at hI hIpos
  rw [← hout] at hOo hOpos
  rw [← hin, ← hout, ← hfds] at hm
  have hnd := hok1.1
  rw [← hfds] at hnd
  rw [← hcl] at hc
  refine ⟨r, hr, hI, hOo, ?_, ?_, hnd, hm, hc⟩
  · intro path hp
    have hne : operands .T_INPUT .T_NULL (token.take ntokens) ≠ [] := by
      intro h; rw [h] at hp; simp at hp
    have hpos := hIpos hne
    refine ⟨r.input.toNat, (Int.toNat_of_nonneg hpos).symm, ?_⟩
    exact (hm (r.input.toNat, .file path false)).mpr
      (Or.inr (Or.inl ⟨path, hp, Int.toNat_of_nonneg hpos, rfl⟩))
  · intro path hp
    have hne : operands .T_OUTPUT .T_NULL (token.take ntokens) ≠ [] := by
      intro h; rw [h] at hp; simp at hp
    have hpos := hOpos hne
    refine ⟨r.output.toNat, (Int.toNat_of_nonneg hpos).symm, ?_⟩
    exact (hm (r.output.toNat, .file path true)).mpr
      (Or.inr (Or.inr ⟨path, hp, Int.toNat_of_nonneg hpos, rfl⟩))

/-- C7 on the array of `a < f b > g > h`, the slots being unset on entry. -/
theorem do_redir_descriptors_witness :
    ∃ r, do_redir (fun _ => true) exTokens 8 (-1) (-1) exFds = .ok r ∧
      (operands .T_INPUT .T_NULL (exTokens.take 8) = [] → r.input = -1) ∧
      (operands .T_OUTPUT .T_NULL (exTokens.take 8) = [] → r.output = -1) ∧
      (∀ path, (operands .T_INPUT .T_NULL (exTokens.take 8)).getLast? = some (.word path) →
        ∃ fd : Nat, r.input = fd ∧ (fd, OpenFile.file path false) ∈ r.fds) ∧
      (∀ path, (operands .T_OUTPUT .T_NULL (exTokens.take 8)).getLast? = some (.word path) →
        ∃ fd : Nat, r.output = fd ∧ (fd, OpenFile.file path true) ∈ r.fds) ∧
      (r.fds.map Prod.fst).Nodup ∧
      (∀ e : Nat × OpenFile, e ∈ r.fds ↔
        (e ∈ exFds ∧
          ¬ (operands .T_INPUT .T_NULL (exTokens.take 8) ≠ [] ∧ (e.1 : Int) = -1) ∧
          ¬ (operands .T_OUTPUT .T_NULL (exTokens.take 8) ≠ [] ∧ (e.1 : Int) = -1)) ∨
        (∃ path, (operands .T_INPUT .T_NULL (exTokens.take 8)).getLast? = some (.word path) ∧
          (e.1 : Int) = r.input ∧ e.2 = .file path false) ∨
        (∃ path, (operands .T_OUTPUT .T_NULL (exTokens.take 8)).getLast? = some (.word path) ∧
          (e.1 : Int) = r.output ∧ e.2 = .file path true)) ∧
      r.closed.length = superseded (operands .T_INPUT .T_NULL (exTokens.take 8)) (-1) +
        superseded (operands .T_OUTPUT .T_NULL (exTokens.take 8)) (-1) :=
  do_redir_descriptors (fun _ => true) exTokens 8 (-1) (-1) exFds (by decide)
    (fun t ht => by
      have hmem : t ∈ [Token.word "f", Token.word "g", Token.word "h"] := by
        rcases ht with h | h
        · have hI : operands .T_INPUT .T_NULL (exTokens.take 8) = [Token.word "f"] := by decide
          rw [hI] at h
          simp only [List.mem_singleton] at h
          simp [h]
        · have hO : operands .T_OUTPUT .T_NULL (exTokens.take 8)
              = [Token.word "g", Token.word "h"] := by decide
          rw [hO] at h
          simp only [List.mem_cons, List.mem_singleton, List.not_mem_nil, or_false] at h
          rcases h with h | h <;> simp [h]
      simp only [List.mem_cons, List.mem_singleton, List.not_mem_nil, or_false] at hmem
      rcases hmem with h | h | h
      · exact ⟨"f", h, rfl⟩
      · exact ⟨"g", h, rfl⟩
      · exact ⟨"h", h, rfl⟩)
    (by decide)

/-! ## C5 -/

/-- C5: after `ls > f` in the foreground, the job being finished and deleted,
the shell is back at the prompt with descriptor 4, opened by `do_redir` on
`f`, still open: `do_job` never closes the descriptors of its redirections,
where the specification has the open descriptors equal to those before
(`exFds`). -/
theorem eval_single_command_leaks :
    eval exEnv exRun [.word "ls", .T_OUTPUT, .word "f"] exShell
      = .ok ⟨[Job.zero], (4, .file "f" true) :: exFds,
          [⟨100, [.word "ls"], -1, 4⟩]⟩ := by
  rfl

/-! ## C10 -/

/-- C10: for the command line `> f`, `do_redir` leaves an empty argument
vector, and `do_job` hands it to `builtin_command`, which reads `argv[0]`,
a `NULL` pointer, as a string; no error is reported.  For `a |`, the stage
`a` is forked and the command is run, no error being reported either. -/
theorem eval_empty_stage :
    (do_redir exEnv.fs [.T_OUTPUT, .word "f", .T_NULL] 2 (-1) (-1) exShell.fds).map
        (fun r => argvOf r.token) = .ok [] ∧
    eval exEnv exRun [.T_OUTPUT, .word "f"] exShell = .error .badPointer ∧
    (eval exEnv exRun [.word "a", .T_PIPE] exShell).map (fun s => s.children)
      = .ok [⟨100, [.word "a"], -1, 5⟩] := by
  refine ⟨by rfl, by rfl, by rfl⟩

/-! ## The search along PATH -/

theorem splitColon_ne_nil (l : List Char) : splitColon l ≠ [] := by
  cases l with
  | nil => simp [splitColon]
  | cons ch rest =>
    unfold splitColon
    by_cases h : ch = ':'
    · simp [h]
    · simp only [h, if_false]
      cases splitColon rest <;> simp

/-- The entries of PATH, by its first entry: the characters before the first
`:`, followed by the entries of what comes after that `:`, if there is one. -/
theorem splitColon_first (l : List Char) :
    splitColon l =
      match l.dropWhile (fun ch => decide (ch ≠ ':')) with
      | [] => [l.takeWhile (fun ch => decide (ch ≠ ':'))]
      | _ :: r => l.takeWhile (fun ch => decide (ch ≠ ':')) :: splitColon r := by
  induction l with
  | nil => simp [splitColon]
  | cons ch rest ih =>
    by_cases h : ch = ':'
    · subst h
      simp [splitColon, List.dropWhile, List.takeWhile]
    · have h1 : decide (ch ≠ ':') = true := by simpa using h
      simp only [splitColon, h, if_false, List.dropWhile, List.takeWhile, h1]
      rw [ih]
      cases hd : List.dropWhile (fun ch => decide (ch ≠ ':')) rest with
      | nil => simp
      | cons x r => simp

theorem dropWhile_head_colon (l : List Char) (x : Char) (r : List Char)
    (h : l.dropWhile (fun ch => decide (ch ≠ ':')) = x :: r) : x = ':' := by
  have := List.head_dropWhile_not (fun ch => decide (ch ≠ ':')) l (by rw [h]; simp)
  simp only [h, List.head_cons] at this
  simpa using this

theorem dropEmptyLast_cons (pre : List Char) (es : List (List Char)) (h : es ≠ []) :
    dropEmptyLast (pre :: es) = pre :: dropEmptyLast es := by
  cases es with
  | nil => exact absurd rfl h
  | cons e es =>
    unfold dropEmptyLast
    rw [List.getLast?_cons_cons]
    by_cases hl : (e :: es).getLast? = some []
    · simp [hl, List.dropLast]
    · simp [hl]

/-- The entries tried, by the first of them, for a PATH that is not empty. -/
theorem dropEmptyLast_splitColon (curr : List Char) (hne : curr ≠ []) :
    dropEmptyLast (splitColon curr) =
      curr.takeWhile (fun ch => decide (ch ≠ ':')) ::
        dropEmptyLast (splitColon
          (skipColon (curr.dropWhile (fun ch => decide (ch ≠ ':'))))) := by
  rw [splitColon_first curr]
  cases hd : List.dropWhile (fun ch => decide (ch ≠ ':')) curr with
  | nil =>
    have hall : curr.takeWhile (fun ch => decide (ch ≠ ':')) = curr := by
      have := List.takeWhile_append_dropWhile (fun ch => decide (ch ≠ ':')) curr
      rw [hd, List.append_nil] at this
      exact this
    rw [hall]
    cases curr with
    | nil => exact absurd rfl hne
    | cons a l => simp [dropEmptyLast, splitColon, skipColon]
  | cons x r =>
    have hx : x = ':' := dropWhile_head_colon curr x r hd
    subst hx
    simp only [skipColon]
    exact dropEmptyLast_cons _ _ (splitColon_ne_nil r)

theorem take_length_takeWhile {α : Type} (q : α → Bool) (l : List α) :
    l.take (l.takeWhile q).length = l.takeWhile q := by
  induction l with
  | nil => rfl
  | cons a l ih =>
    by_cases h : q a = true
    · simp [List.takeWhile, h, ih]
    · simp [List.takeWhile, h]

theorem drop_length_takeWhile {α : Type} (q : α → Bool) (l : List α) :
    l.drop (l.takeWhile q).length = l.dropWhile q := by
  induction l with
  | nil => rfl
  | cons a l ih =>
    by_cases h : q a = true
    · simp [List.takeWhile, List.dropWhile, h, ih]
    · simp [List.takeWhile, List.dropWhile, h]

theorem take_strcspn (curr : List Char) :
    curr.take (strcspn curr) = curr.takeWhile (fun ch => decide (ch ≠ ':')) :=
  take_length_takeWhile _ curr

theorem drop_strcspn (curr : List Char) :
    curr.drop (strcspn curr) = curr.dropWhile (fun ch => decide (ch ≠ ':')) :=
  drop_length_takeWhile _ curr

theorem skipColon_length_le (l : List Char) : (skipColon l).length ≤ l.length := by
  unfold skipColon
  split
  · simp
  · exact Nat.le_refl _

/-- Each iteration of the loop shortens the rest of PATH. -/
theorem pathLoop_rest_lt (ch : Char) (rest : List Char) :
    (skipColon ((ch :: rest).dropWhile (fun ch => decide (ch ≠ ':')))).length
      < (ch :: rest).length := by
  by_cases h : ch = ':'
  · subst h
    simp [List.dropWhile, skipColon]
  · have h1 : decide (ch ≠ ':') = true := by simpa using h
    have hlen2 : (rest.dropWhile (fun ch => decide (ch ≠ ':'))).length ≤ rest.length :=
      (List.dropWhile_sublist _).length_le
    have := skipColon_length_le (rest.dropWhile (fun ch => decide (ch ≠ ':')))
    simp only [List.dropWhile, h1, List.length_cons]
    omega

/-- The loop ends within as many iterations as the rest of PATH has
characters. -/
theorem pathLoop_terminates (argv0 : String) (exec : String → Bool) :
    ∀ (fuel : Nat) (curr : List Char), curr.length ≤ fuel →
      ∃ t, pathLoop argv0 exec fuel curr = some t := by
  intro fuel
  induction fuel with
  | zero =>
    intro curr h
    cases curr with
    | nil => exact ⟨_, rfl⟩
    | cons a l => simp at h
  | succ k ih =>
    intro curr h
    cases curr with
    | nil => exact ⟨_, rfl⟩
    | cons ch rest =>
      simp only [pathLoop]
      split
      · exact ⟨_, rfl⟩
      · have hlt := pathLoop_rest_lt ch rest
        rw [← drop_strcspn] at hlt
        obtain ⟨t, ht⟩ := ih (skipColon ((ch :: rest).drop (strcspn (ch :: rest))))
          (by simp only [List.length_cons] at h hlt; omega)
        rw [ht]
        exact ⟨_, rfl⟩

/-- When every `execve` fails, the loop tries the entries of the rest of PATH
in order, a last empty entry apart. -/
theorem pathLoop_fails (argv0 : String) (exec : String → Bool) (hexec : ∀ p, exec p = false) :
    ∀ (fuel : Nat) (curr : List Char), curr.length ≤ fuel →
      pathLoop argv0 exec fuel curr =
        some ⟨(dropEmptyLast (splitColon curr)).map (fun p => String.mk p ++ "/" ++ argv0),
          none⟩ := by
  intro fuel
  induction fuel with
  | zero =>
    intro curr h
    cases curr with
    | nil => simp [pathLoop, splitColon, dropEmptyLast]
    | cons a l => simp at h
  | succ k ih =>
    intro curr h
    cases curr with
    | nil => simp [pathLoop, splitColon, dropEmptyLast]
    | cons ch rest =>
      have hlt := pathLoop_rest_lt ch rest
      rw [← drop_strcspn] at hlt
      have hrec := ih (skipColon ((ch :: rest).drop (strcspn (ch :: rest))))
        (by simp only [List.length_cons] at h hlt; omega)
      simp only [pathLoop, hexec, Bool.false_eq_true, if_false, hrec, Option.map_some']
      rw [dropEmptyLast_splitColon (ch :: rest) (by simp), take_strcspn, drop_strcspn]
      simp


/-! ## C11 -/

/-- C11, as stated, fails: with PATH `/bin:` the entries are `/bin` and the
empty one, so that `/bin/ls` and `/ls` would be tried; `external_command`
tries `/bin/ls` only, the loop ending when nothing follows the `:`. -/
theorem external_command_trailing_colon :
    external_command (some "/bin:".data) "ls" (fun _ => false) = some ⟨["/bin/ls"], none⟩ ∧
    (splitColon "/bin:".data).map (fun p => String.mk p ++ "/" ++ "ls") = ["/bin/ls", "/ls"] := by
  decide

/-- C11, amended: for every `argv[0]` without `/` and every value of PATH,
when every `execve` fails, `external_command` tries exactly the paths
`p + "/" + argv[0]` for the `:`-separated entries `p` of PATH, once each and in
order, except that an empty entry at the end of PATH (after a last `:`, or
PATH being empty) is not tried; then it ends with the failure status.  The
loop ends for every PATH and every outcome of the attempts. -/
theorem external_command_search (path : List Char) (argv0 : String)
    (hslash : '/' ∉ argv0.data) :
    (∀ exec : String → Bool, (∀ p, exec p = false) →
      external_command (some path) argv0 exec =
        some ⟨(dropEmptyLast (splitColon path)).map (fun p => String.mk p ++ "/" ++ argv0),
          none⟩) ∧
    (∀ exec : String → Bool, ∃ t, external_command (some path) argv0 exec = some t) := by
  constructor
  · intro exec hexec
    simp only [external_command, hslash, if_false]
    exact pathLoop_fails argv0 exec hexec path.length path (Nat.le_refl _)
  · intro exec
    simp only [external_command, hslash, if_false]
    exact pathLoop_terminates argv0 exec path.length path (Nat.le_refl _)

/-- C11, amended, for PATH `/nonexistent:/bin` and the command `nope`. -/
theorem external_command_search_witness :
    external_command (some "/nonexistent:/bin".data) "nope" (fun _ => false) =
      some ⟨(dropEmptyLast (splitColon "/nonexistent:/bin".data)).map
        (fun p => String.mk p ++ "/" ++ "nope"), none⟩ ∧
    (dropEmptyLast (splitColon "/nonexistent:/bin".data)).map
        (fun p => String.mk p ++ "/" ++ "nope") = ["/nonexistent/nope", "/bin/nope"] :=
  ⟨(external_command_search "/nonexistent:/bin".data "nope" (by decide)).1 (fun _ => false)
    (fun _ => rfl), by decide⟩

/-! ## C13 -/

/-- The slots for which `watchjobs` is logged to call `deljob` are those it
frees; the others it leaves as they are. -/
theorem watchSlot_reachesDeljob (c : StateCodes) (which : Int) (j : Nat) (job : Job)
    (r : Job × List Msg) (h : watchSlot c which j job = .ok r) :
    (reachesDeljob c which job = true →
      r.1 = { job with pgid := 0, command := none, proc := [] }) ∧
    (reachesDeljob c which job = false → r.1 = job) := by
  unfold watchSlot at h
  unfold reachesDeljob
  by_cases hp : job.pgid = 0
  · simp only [hp, if_true] at h
    have := (Except.ok.inj h).symm
    subst this
    simp [hp]
  · simp only [hp, if_false] at h
    by_cases hskip : which ≠ c.ALL ∧ job.state ≠ which
    · rw [if_pos hskip] at h
      have := (Except.ok.inj h).symm
      subst this
      simp [hskip.1, hskip.2]
    · rw [if_neg hskip] at h
      have hskip2 : (decide (which ≠ c.ALL) && decide (job.state ≠ which)) = false := by
        by_contra hh
        simp only [Bool.not_eq_false, Bool.and_eq_true, decide_eq_true_eq] at hh
        exact hskip hh
      by_cases hr : job.state = c.RUNNING
      · simp only [hr, if_true] at h
        have := (Except.ok.inj h).symm
        subst this
        simp [hr]
      · simp only [hr, if_false] at h
        by_cases hs : job.state = c.STOPPED
        · simp only [hs, if_true] at h
          have := (Except.ok.inj h).symm
          subst this
          simp [hs]
        · simp only [hs, if_false] at h
          cases hx : exitcode job with
          | error e => simp [hx] at h
          | ok x =>
            simp only [hx] at h
            by_cases hf : job.state = c.FINISHED
            · simp only [deljob, hf, if_true] at h
              have := (Except.ok.inj h).symm
              subst this
              refine ⟨fun _ => (by simp [hf]), fun hfalse => ?_⟩
              simp only [hskip2, ne_eq, hp, hr, hs, not_false_eq_true, decide_True,
                Bool.not_false, Bool.and_self] at hfalse
              exact absurd hfalse (by simp)
            · simp [deljob, hf] at h

/-- C12: with SIGCHLD not blocked, as it is in the read-eval loop, the `jobs`
built-in deletes the finished job of slot 1 while SIGCHLD is not blocked, and
so does the sweep `watchjobs(FINISHED)` after a command: neither `do_jobs`
nor `main` calls `Sigprocmask` around `watchjobs`, where the specification has
every mutation made with SIGCHLD blocked.  `do_bg`, from the same state, does
block: its state write is made with SIGCHLD blocked and the mask is restored. -/
theorem do_jobs_deletes_unblocked :
    do_jobs exCodes ⟨[Job.zero, exFinished], false, []⟩
      = .ok ⟨[Job.zero, { exFinished with pgid := 0, command := none, proc := [] }], false,
          [(.deljob, false)]⟩ ∧
    promptSweep exCodes ⟨[Job.zero, exFinished], false, []⟩
      = .ok ⟨[Job.zero, { exFinished with pgid := 0, command := none, proc := [] }], false,
          [(.deljob, false)]⟩ ∧
    do_bg exCodes 3 1 ⟨[Job.zero, exStopped], false, []⟩
      = .ok ⟨[Job.zero, exResumed], false, [(.setState, true)]⟩ := by
  refine ⟨by rfl, by rfl, by rfl⟩

end Shell
